import Mathlib

/-
  Verification of the identifier generation/verification pipeline of the
  `@hixbe/sig` library (src/generator-sync.ts [generator core], src/helpers.ts,
  crypto-utils, advanced-security).

  Modelling conventions:
  * JavaScript strings are embedded as `List Char` (`Str`); all string content
    handled by the library is ASCII, and `toUpperCase`/`toLowerCase` are
    modelled on the ASCII range.
  * Byte buffers are `List Nat` (each entry a byte value, < 256 for real
    buffers).
  * The CSPRNG (`crypto.randomBytes`, `crypto.randomInt`), the wall clock
    (`Date.now()`), the global counter, and the collision store are external
    effects; they enter the model as an explicit `Entropy` record of streams,
    so a generation run is a pure function of configuration and entropy.
  * The cryptographic digest primitives (`hashData`, `hmacSign`, `deriveKey`,
    `memoryHardDerive`) are out-of-scope collaborators per the spec; they are
    modelled as an `Oracles` record of total functions.  SHA-256 (the default
    algorithm) is additionally implemented concretely (`sha256`, checked
    against the FIPS 180-4 test vector) so that concrete runs evaluate.
  * JavaScript exceptions are modelled with `Except`; `try { .. } catch {
    return false }` becomes `catchFalse`.
-/

namespace Sig

/-- JS strings as lists of characters. -/
abbrev Str := List Char

/-- Convenience literal conversion. -/
def str (s : String) : Str := s.data

/-- ASCII uppercase of one character (models `String.prototype.toUpperCase`
on the ASCII content this library manipulates). -/
def upChar (c : Char) : Char :=
  if 'a' ≤ c ∧ c ≤ 'z' then Char.ofNat (c.toNat - 32) else c

/-- ASCII lowercase of one character. -/
def downChar (c : Char) : Char :=
  if 'A' ≤ c ∧ c ≤ 'Z' then Char.ofNat (c.toNat + 32) else c

/-- `s.toUpperCase()` on ASCII content. -/
def toUpper (s : Str) : Str := s.map upChar

/-- `s.toLowerCase()` on ASCII content. -/
def toLower (s : Str) : Str := s.map downChar

/-- Index normalisation of `String.prototype.slice`: a negative index counts
from the end, and the result is clamped into `[0, len]`. -/
def jsClamp (len : Nat) (i : Int) : Nat :=
  if i < 0 then ((len : Int) + i).toNat else min i.toNat len

/-- `s.slice(a, b)` with full JS index semantics. -/
def jsSlice (s : Str) (a b : Int) : Str :=
  (s.take (jsClamp s.length b)).drop (jsClamp s.length a)

/-- `s.slice(a)` (to the end of the string). -/
def jsSliceFrom (s : Str) (a : Int) : Str := jsSlice s a s.length

/-- `s.substring(a, b)` for the non-negative arguments used in the source. -/
def jsSubstring (s : Str) (a b : Nat) : Str :=
  let a' := min a s.length
  let b' := min b s.length
  (s.take (max a' b')).drop (min a' b')

/-- Decimal digit characters `0-9a-z`, the digit alphabet of
`Number.prototype.toString(radix)`. -/
def baseDigitChar (d : Nat) : Char := (str "0123456789abcdefghijklmnopqrstuvwxyz").getD d '?'

/-- Fuel-driven digit extraction for `n.toString(radix)` (most significant
digit first); `fuel = n + 1` always suffices for `radix ≥ 2`. -/
def natToBaseAux (b : Nat) : Nat → Nat → Str → Str
  | 0, _, acc => acc
  | fuel + 1, n, acc =>
    if n = 0 then acc else natToBaseAux b fuel (n / b) (baseDigitChar (n % b) :: acc)

/-- `n.toString(b)` for a natural number `n` and radix `b ≥ 2`. -/
def natToBase (b n : Nat) : Str :=
  if n = 0 then ['0'] else natToBaseAux b (n + 1) n []

/-- Lowercase hex digit characters, as emitted by `Buffer.toString('hex')`. -/
def hexDigitChar (d : Nat) : Char := (str "0123456789abcdef").getD d '?'

/-- `buffer.toString('hex')`: two lowercase hex characters per byte. -/
def bytesToHex (bytes : List Nat) : Str :=
  bytes.flatMap (fun b => [hexDigitChar (b / 16), hexDigitChar (b % 16)])

/-- Numeric value of one hex digit (0 for non-hex characters; real buffers
only produce valid hex digits). -/
def hexDigitVal (c : Char) : Nat :=
  if '0' ≤ c ∧ c ≤ '9' then c.toNat - 48
  else if 'a' ≤ c ∧ c ≤ 'f' then c.toNat - 87
  else if 'A' ≤ c ∧ c ≤ 'F' then c.toNat - 55
  else 0

/-- Value of a hex string read as a big-endian unsigned integer; models
`BigInt('0x' + h)` for non-empty valid `h`. -/
def hexToNat (h : Str) : Nat := h.foldl (fun a c => a * 16 + hexDigitVal c) 0

/-- ASCII bytes of a string (`Buffer.from(s)` / hash `update(s)`; the
library's string content is ASCII, where UTF-8 agrees with code points). -/
def strBytes (s : Str) : List Nat := s.map Char.toNat

/-- Big-endian base-256 value of a byte list. -/
def beNum (bytes : List Nat) : Nat := bytes.foldl (fun a b => a * 256 + b) 0

/- ===================== SHA-256 (FIPS 180-4) ===================== -/

/-- 2^32, the word modulus of SHA-256. -/
def two32 : Nat := 4294967296

/-- Rotate a 32-bit word right by `n`. -/
def rotr (n x : Nat) : Nat := ((x >>> n) ||| (x <<< (32 - n))) % two32

/-- SHA-256 Ch function. -/
def chF (x y z : Nat) : Nat := (x &&& y) ^^^ ((x ^^^ 4294967295) &&& z)

/-- SHA-256 Maj function. -/
def majF (x y z : Nat) : Nat := (x &&& y) ^^^ (x &&& z) ^^^ (y &&& z)

/-- SHA-256 Σ0. -/
def bsig0 (x : Nat) : Nat := rotr 2 x ^^^ rotr 13 x ^^^ rotr 22 x

/-- SHA-256 Σ1. -/
def bsig1 (x : Nat) : Nat := rotr 6 x ^^^ rotr 11 x ^^^ rotr 25 x

/-- SHA-256 σ0. -/
def ssig0 (x : Nat) : Nat := rotr 7 x ^^^ rotr 18 x ^^^ (x >>> 3)

/-- SHA-256 σ1. -/
def ssig1 (x : Nat) : Nat := rotr 17 x ^^^ rotr 19 x ^^^ (x >>> 10)

/-- SHA-256 round constants. -/
def shaK : List Nat :=
  [1116352408, 1899447441, 3049323471, 3921009573, 961987163, 1508970993,
   2453635748, 2870763221, 3624381080, 310598401, 607225278, 1426881987,
   1925078388, 2162078206, 2614888103, 3248222580, 3835390401, 4022224774,
   264347078, 604807628, 770255983, 1249150122, 1555081692, 1996064986,
   2554220882, 2821834349, 2952996808, 3210313671, 3336571891, 3584528711,
   113926993, 338241895, 666307205, 773529912, 1294757372, 1396182291,
   1695183700, 1986661051, 2177026350, 2456956037, 2730485921, 2820302411,
   3259730800, 3345764771, 3516065817, 3600352804, 4094571909, 275423344,
   430227734, 506948616, 659060556, 883997877, 958139571, 1322822218,
   1537002063, 1747873779, 1955562222, 2024104815, 2227730452, 2361852424,
   2428436474, 2756734187, 3204031479, 3329325298]

/-- Big-endian 8-byte encoding of the message bit length. -/
def be8 (n : Nat) : List Nat := (List.range 8).map (fun i => (n >>> (8 * (7 - i))) % 256)

/-- SHA-256 message padding. -/
def sha256pad (msg : List Nat) : List Nat :=
  let zeros := (119 - (msg.length % 64)) % 64
  msg ++ [128] ++ List.replicate zeros 0 ++ be8 (8 * msg.length)

/-- Group bytes into big-endian 32-bit words. -/
def beWords : List Nat → List Nat
  | b0 :: b1 :: b2 :: b3 :: rest => (((b0 * 256 + b1) * 256 + b2) * 256 + b3) :: beWords rest
  | _ => []

/-- Split a byte list into 64-byte blocks (fuel-driven; `fuel ≥ length`
suffices since every step consumes at least one byte). -/
def blocksGo : Nat → List Nat → List (List Nat)
  | 0, _ => []
  | _ + 1, [] => []
  | fuel + 1, l => l.take 64 :: blocksGo fuel (l.drop 64)

/-- One message-schedule extension step: append the next W word. -/
def schedStep (acc : List Nat) : List Nat :=
  acc ++ [(ssig1 (acc.getD (acc.length - 2) 0) + acc.getD (acc.length - 7) 0 +
           ssig0 (acc.getD (acc.length - 15) 0) + acc.getD (acc.length - 16) 0) % two32]

/-- Full 64-word message schedule from the 16 block words. -/
def sched (ws : List Nat) : List Nat := (List.range 48).foldl (fun a _ => schedStep a) ws

/-- SHA-256 working state. -/
structure S8 where
  a : Nat
  b : Nat
  c : Nat
  d : Nat
  e : Nat
  f : Nat
  g : Nat
  h : Nat

/-- SHA-256 initial hash value. -/
def initS8 : S8 :=
  ⟨1779033703, 3144134277, 1013904242, 2773480762, 1359893119, 2600822924, 528734635, 1541459225⟩

/-- One SHA-256 round. -/
def roundStep (s : S8) (wk : Nat × Nat) : S8 :=
  let t1 := (s.h + bsig1 s.e + chF s.e s.f s.g + wk.2 + wk.1) % two32
  let t2 := (bsig0 s.a + majF s.a s.b s.c) % two32
  ⟨(t1 + t2) % two32, s.a, s.b, s.c, (s.d + t1) % two32, s.e, s.f, s.g⟩

/-- Compress one 64-byte block into the chaining state. -/
def compressBlock (s0 : S8) (block : List Nat) : S8 :=
  let ws := sched (beWords block)
  let s := (ws.zip shaK).foldl roundStep s0
  ⟨(s0.a + s.a) % two32, (s0.b + s.b) % two32, (s0.c + s.c) % two32, (s0.d + s.d) % two32,
   (s0.e + s.e) % two32, (s0.f + s.f) % two32, (s0.g + s.g) % two32, (s0.h + s.h) % two32⟩

/-- Big-endian bytes of one 32-bit word. -/
def be4 (w : Nat) : List Nat := [(w >>> 24) % 256, (w >>> 16) % 256, (w >>> 8) % 256, w % 256]

/-- SHA-256 digest (32 bytes) of a byte message. -/
def sha256 (msg : List Nat) : List Nat :=
  let padded := sha256pad msg
  let s := (blocksGo padded.length padded).foldl compressBlock initS8
  be4 s.a ++ be4 s.b ++ be4 s.c ++ be4 s.d ++ be4 s.e ++ be4 s.f ++ be4 s.g ++ be4 s.h

/- ===================== Data model (src/types.ts) ===================== -/

/-- Digest algorithm choice (the hash-algorithm values of `Algorithm`; the
post-quantum values `kyber768`/`dilithium3` are rejected by the synchronous
path and are out of scope per the spec). -/
inductive Algorithm
  | sha256
  | sha512
  | sha3_256
  | sha3_512
  | blake2b512
  | shake256
deriving DecidableEq

/-- Generation mode. -/
inductive Mode
  | random
  | hash
  | hmac
  | hybrid
  | hmacHash
  | memoryHard
deriving DecidableEq

/-- Case policy (source field `case`, a Lean keyword). -/
inductive CaseType
  | upper
  | lower
  | mixed
deriving DecidableEq

/-- Checksum placement: the source accepts `'start'`, `'middle'`, a number
array, and treats every other string as `'end'` (the default branch), which
`atEnd` models. -/
inductive ChecksumPosition
  | start
  | middle
  | atEnd
  | explicit (ps : List Nat)
deriving DecidableEq

/-- Multi-factor verification method names. -/
inductive VMethod
  | checksum
  | hmac
  | timestamp
  | signature
  | expiry
  | device
  | geo
deriving DecidableEq

/-- Security options record (the fields of `SecurityOptions` that influence
the returned identifier or verification result; audit logging and secure
deletion are effects on external sinks and do not affect either). `rateLimit`
records whether a rate-limit option object is supplied; `checkRevocation` and
`verifyMultiFactor` come from `VerifyOptions.security`. -/
structure SecurityOptions where
  enhanceEntropy : Bool := false
  memoryHard : Bool := false
  doubleHash : Bool := false
  avoidAmbiguousChars : Bool := false
  enforceCharset : Option Str := none
  reseed : Bool := false
  timestampEmbed : Bool := false
  counterEmbed : Bool := false
  ttl : Option Nat := none
  embedExpiry : Bool := false
  rateLimit : Bool := false
  collisionDetection : Bool := false
  embedGeo : Bool := false
  geoRegion : Str := []
  deviceBinding : Bool := false
  deviceId : Str := []
  steganography : Bool := false
  hiddenData : Str := []
  checkRevocation : Bool := false
  verifyMultiFactor : List VMethod := []
deriving DecidableEq

/-- The option record shared by generation (`SecureIdOptions`) and
verification (`VerifyOptions`): the source's two interfaces read the same
fields, plus `originalId` for verification.  `pfx` models the source field
for the leading frame string (its source name is a Lean keyword). -/
structure Config where
  length : Nat := 32
  algorithm : Algorithm := .sha256
  mode : Mode := .random
  caseType : CaseType := .upper
  separator : Str := []
  separatorLength : Nat := 8
  checksum : Bool := false
  checksumCount : Nat := 1
  checksumLength : Nat := 1
  checksumPosition : ChecksumPosition := .atEnd
  pfx : Str := []
  suffix : Str := []
  secret : Str := []
  salt : Str := []
  pepper : Str := []
  originalId : Option Str := none
  security : SecurityOptions := {}
deriving DecidableEq

/- ============== Crypto primitives as oracles (crypto-utils.ts) ==============

The digest primitives are external collaborators (Node's `crypto`); the spec
places them out of scope.  They enter the model as a record of total
functions, constrained by `WFOracles` to produce digests of the documented
byte lengths. -/

/-- Digest byte length of `hashData` per algorithm (`shake256` is created
with `outputLength: 64`). -/
def digestLen : Algorithm → Nat
  | .sha256 => 32
  | .sha512 => 64
  | .sha3_256 => 32
  | .sha3_512 => 64
  | .blake2b512 => 64
  | .shake256 => 64

/-- Digest byte length of `hmacSign` per algorithm (`shake256` falls back to
HMAC with SHA3-256, hence 32 bytes). -/
def hmacLen : Algorithm → Nat
  | .shake256 => 32
  | a => digestLen a

/-- The digest primitives consumed by the library: `hashData` (byte input to
digest bytes), `hmacSign` (data, string key), `deriveKey` (HKDF, 32 bytes)
and `memoryHardDerive` (PBKDF2, 64 bytes). -/
structure Oracles where
  hashO : Algorithm → List Nat → List Nat
  hmacO : Algorithm → Str → List Nat → List Nat
  hkdfO : Str → Str → Str → Algorithm → List Nat
  pbkdf2O : Str → Str → Nat → List Nat

/-- Well-formedness of an oracle record: every digest has its documented
length and consists of bytes. -/
def WFOracles (O : Oracles) : Prop :=
  (∀ alg d, (O.hashO alg d).length = digestLen alg ∧ ∀ b ∈ O.hashO alg d, b < 256) ∧
  (∀ alg k d, (O.hmacO alg k d).length = hmacLen alg ∧ ∀ b ∈ O.hmacO alg k d, b < 256) ∧
  (∀ s sa p alg, (O.hkdfO s sa p alg).length = 32 ∧ ∀ b ∈ O.hkdfO s sa p alg, b < 256) ∧
  (∀ i s n, (O.pbkdf2O i s n).length = 64 ∧ ∀ b ∈ O.pbkdf2O i s n, b < 256)

/-- Stretch a SHA-256 digest to `n ≤ 64` bytes (used to give the out-of-scope
non-SHA-256 primitives length-correct concrete stand-ins). -/
def stretchTo (n : Nat) (seed : List Nat) : List Nat :=
  (sha256 seed ++ sha256 (0 :: seed)).take n

/-- Concrete oracle record: `hashData` with the default `sha256` algorithm is
the real SHA-256; the remaining primitives (out-of-scope collaborators whose
values no claim depends on) are length-correct SHA-256-based stand-ins. -/
def realOracles : Oracles where
  hashO := fun alg d => match alg with
    | .sha256 => sha256 d
    | _ => stretchTo (digestLen alg) d
  hmacO := fun alg k d => stretchTo (hmacLen alg) (strBytes k ++ 1 :: d)
  hkdfO := fun s sa p _ => stretchTo 32 (strBytes s ++ 2 :: strBytes sa ++ 3 :: strBytes p)
  pbkdf2O := fun i s n => stretchTo 64 (strBytes i ++ 4 :: strBytes s ++ be8 n)

/-- Timing-safe comparison wrapper: length check, then `crypto.timingSafeEqual`
(byte equality on equal-length buffers). -/
def timingSafeEqual (a b : Str) : Bool :=
  if a.length ≠ b.length then false else a == b

/-- Digit-extraction loop of `bufferToBase`
(`while (num > 0 && result.length < length)`), prepending
`charset[num % base]`; the fuel is the remaining capacity, which is exact
because every iteration adds one character. -/
def digitsLoop (base : Nat) (charset : Str) : Nat → Nat → Str → Str
  | 0, _, acc => acc
  | cap + 1, num, acc =>
    if num = 0 then acc
    else digitsLoop base charset cap (num / base) (charset.getD (num % base) '?' :: acc)

/-- Left-pad loop of `bufferToBase` (`while (result.length < length)`),
prepending `charset[randomInt(0, charset.length)]`; `pad j` is the `j`-th
random index drawn. -/
def padLoop (charset : Str) (pad : Nat → Nat) : Nat → Nat → Str → Str
  | _, 0, acc => acc
  | j, cap + 1, acc => padLoop charset pad (j + 1) cap (charset.getD (pad j) '?' :: acc)

/-- `bufferToBase(buffer, charset, length)`: big-integer base conversion with
secure-random left padding.  `none` models the `SyntaxError` that
`BigInt('0x' + buffer.toString('hex'))` throws on an empty buffer. -/
def bufferToBase (buffer : List Nat) (charset : Str) (len : Nat) (pad : Nat → Nat) : Option Str :=
  if buffer.isEmpty then none
  else
    let num := hexToNat (bytesToHex buffer)
    let ds := digitsLoop charset.length charset len num []
    let r := padLoop charset pad 0 (len - ds.length) ds
    some (r.take len)

/-- `getCharset`: an explicitly supplied charset wins when truthy (the empty
string is falsy and falls through to the defaults). -/
def getCharset (avoidAmbiguous : Bool) (enforce : Option Str) : Str :=
  match enforce with
  | some (c :: cs) => c :: cs
  | _ =>
    if avoidAmbiguous then str "ABCDEFGHJKLMNPQRSTUVWXYZ23456789abcdefghjkmnpqrstuvwxyz"
    else str "ABCDEFGHIJKLMNOPQRSTUVWXYZabcdefghijklmnopqrstuvwxyz0123456789"

/-- `applyCase`. -/
def applyCase (s : Str) : CaseType → Str
  | .upper => toUpper s
  | .lower => toLower s
  | .mixed => s

/- ============ Metadata embedding (advanced-security.ts) ============ -/

/-- The base64 alphabet. -/
def base64Chars : Str := str "ABCDEFGHIJKLMNOPQRSTUVWXYZabcdefghijklmnopqrstuvwxyz0123456789+/"

/-- Base64 encoding with the `=` padding already stripped, as produced by
`Buffer.toString('base64').replace(/=/g, '')`. -/
def base64Go : List Nat → Str
  | [] => []
  | [b0] =>
    [base64Chars.getD (b0 >>> 2) '?', base64Chars.getD ((b0 &&& 3) <<< 4) '?']
  | [b0, b1] =>
    [base64Chars.getD (b0 >>> 2) '?', base64Chars.getD (((b0 &&& 3) <<< 4) ||| (b1 >>> 4)) '?',
     base64Chars.getD ((b1 &&& 15) <<< 2) '?']
  | b0 :: b1 :: b2 :: rest =>
    base64Chars.getD (b0 >>> 2) '?' ::
    base64Chars.getD (((b0 &&& 3) <<< 4) ||| (b1 >>> 4)) '?' ::
    base64Chars.getD (((b1 &&& 15) <<< 2) ||| (b2 >>> 6)) '?' ::
    base64Chars.getD (b2 &&& 63) '?' :: base64Go rest

/-- Numeric value of a base64 character (0 when absent; a total stand-in for
Node's lenient base64 decoding, whose exact bytes no claim depends on). -/
def base64Val (c : Char) : Nat :=
  (base64Chars.indexOf c) % 64

/-- Base64 decoding, total (models `Buffer.from(s, 'base64')`, which never
throws; only its totality matters to the claims below). -/
def base64Decode : Str → List Nat
  | c0 :: c1 :: c2 :: c3 :: rest =>
    ((base64Val c0 <<< 2) ||| (base64Val c1 >>> 4)) ::
    (((base64Val c1 &&& 15) <<< 4) ||| (base64Val c2 >>> 2)) ::
    (((base64Val c2 &&& 3) <<< 6) ||| base64Val c3) :: base64Decode rest
  | [c0, c1, c2] =>
    ((base64Val c0 <<< 2) ||| (base64Val c1 >>> 4)) ::
    [((base64Val c1 &&& 15) <<< 4) ||| (base64Val c2 >>> 2)]
  | [c0, c1] => [(base64Val c0 <<< 2) ||| (base64Val c1 >>> 4)]
  | _ => []

/-- `embedExpiry(ttl)` at clock value `now`: `(now + ttl*1000).toString(36)`. -/
def embedExpiryStr (now ttl : Nat) : Str := natToBase 36 (now + ttl * 1000)

/-- `embedGeoRegion`: base64 (padding stripped) truncated to 8 characters. -/
def embedGeoRegion (region : Str) : Str := (base64Go (strBytes region)).take 8

/-- `embedDeviceId`: SHA-256 hex of the device id truncated to 12 characters. -/
def embedDeviceId (O : Oracles) (deviceId : Str) : Str :=
  (bytesToHex (O.hashO .sha256 (strBytes deviceId))).take 12

/-- `extractGeoRegion` (the catch is dead code: Node base64 decoding is
total). -/
def extractGeoRegion (encoded : Str) : Str :=
  (base64Decode encoded).map Char.ofNat

/-- `embedHiddenData`: inserts two 4-character marker halves at the 1/3 and
2/3 positions. -/
def embedHiddenData (id hidden : Str) : Str :=
  let encoded := base64Go (strBytes hidden)
  let marker := jsSubstring encoded 0 8
  let third := id.length / 3
  let twoThird := id.length * 2 / 3
  jsSlice id 0 third ++ jsSubstring marker 0 4 ++
    jsSlice id third twoThird ++ jsSubstring marker 4 8 ++ jsSliceFrom id twoThird

/-- `parseInt(s, 36)` on the all-alphanumeric strings the expiry regex
produces (case-insensitive base-36 digit values). -/
def parseInt36 (s : Str) : Nat :=
  s.foldl (fun a c => a * 36 + (if '0' ≤ c ∧ c ≤ '9' then c.toNat - 48
    else if 'a' ≤ c ∧ c ≤ 'z' then c.toNat - 87
    else if 'A' ≤ c ∧ c ≤ 'Z' then c.toNat - 55 else 0)) 0

/-- `isExpired` at clock value `now`. -/
def isExpiredAt (now : Nat) (expiryStr : Str) : Bool :=
  decide (now > parseInt36 expiryStr)

/- ============ Separators, splitting, sorting ============ -/

/-- Chunking loop of `insertSeparators`
(`for (i = 0; i < id.length; i += segmentLength)`); the fuel equals the
string length, which suffices for every stride ≥ 1 (a zero stride makes the
source loop diverge and is excluded by `ValidConfig`). -/
def chunksGo (stride : Nat) : Nat → Str → List Str
  | 0, _ => []
  | fuel + 1, s => if s.isEmpty then [] else s.take stride :: chunksGo stride fuel (s.drop stride)

/-- The chunks of `insertSeparators`. -/
def jsChunks (s : Str) (stride : Nat) : List Str := chunksGo stride s.length s

/-- `segments.join(separator)`. -/
def joinSep (sep : Str) : List Str → Str
  | [] => []
  | [c] => c
  | c :: cs => c ++ sep ++ joinSep sep cs

/-- `insertSeparators(id, separator, segmentLength)`. -/
def insertSeparators (id sep : Str) (segLen : Nat) : Str := joinSep sep (jsChunks id segLen)

/-- Scanner of `String.prototype.split` for a non-empty separator: leftmost
non-overlapping occurrences; the fuel `s.length + 1` is enough because every
step either consumes a character or terminates. -/
def splitGo (sep : Str) : Nat → Str → Str → List Str
  | 0, rest, cur => [cur.reverse ++ rest]
  | fuel + 1, rest, cur =>
    if sep.isPrefixOf rest then cur.reverse :: splitGo sep fuel (rest.drop sep.length) []
    else
      match rest with
      | [] => [cur.reverse]
      | c :: rs => splitGo sep fuel rs (c :: cur)

/-- `s.split(sep)` (an empty separator splits into single characters). -/
def jsSplit (s sep : Str) : List Str :=
  if sep = [] then s.map (fun c => [c]) else splitGo sep (s.length + 1) s []

/-- Insert into a descending list (used to model
`[...positions].sort((a, b) => b - a)`). -/
def insertDesc (x : Nat) : List Nat → List Nat
  | [] => [x]
  | y :: ys => if y ≤ x then x :: y :: ys else y :: insertDesc x ys

/-- Sort positions in descending order. -/
def sortDesc (l : List Nat) : List Nat := l.foldr insertDesc []

/- ============ Generator (src/generator.ts) ============ -/

/-- Synchronous generation failures (`throw new Error(...)` sites). -/
inductive GenErr
  | rateLimited
  | secretRequired (mode : Mode)
  | ttlRequired
  | deviceIdRequired
  | collisionExhausted
  | encodingFailure
deriving DecidableEq

/-- The external effects a generation run reads: the CSPRNG byte stream
(successive `crypto.randomBytes` output), the `crypto.randomInt` draws inside
`bufferToBase` (indexed by call slot and draw number), the clock, the global
counter, the collision-store membership, and the rate limiter's verdict. -/
structure Entropy where
  bytes : Nat → Nat
  padIdx : Nat → Nat → Nat
  now : Nat
  counter : Nat
  collision : Str → Bool
  rateLimitOk : Bool

/-- `n` successive CSPRNG bytes starting at stream offset `off`. -/
def takeBytes (ent : Entropy) (off n : Nat) : List Nat :=
  (List.range n).map (fun i => ent.bytes (off + i))

/-- JS truthiness of the `ttl` option (`undefined` and `0` are falsy). -/
def ttlTruthy : Option Nat → Bool
  | none => false
  | some 0 => false
  | some (_ + 1) => true

/-- `generateRandomId`: draw `length * 2` bytes (four times that with
`enhanceEntropy`, 32 more with `reseed`) and base-convert. -/
def generateRandomId (ent : Entropy) (off slot len : Nat) (charset : Str)
    (enhance reseed : Bool) : Option Str :=
  let n := 2 * len
  let drawn := takeBytes ent off (if enhance then 4 * n else n)
  let randomBytes := if reseed then drawn ++ takeBytes ent (off + drawn.length) 32 else drawn
  bufferToBase randomBytes charset len (ent.padIdx slot)

/-- `deriveKey(...).toString('hex')` when a pepper is present, else the raw
secret. -/
def deriveKeyStr (O : Oracles) (secret salt pepper : Str) (alg : Algorithm) : Str :=
  if pepper ≠ [] then bytesToHex (O.hkdfO secret salt pepper alg) else secret

/-- `generateHashId`: hash of 64 random bytes (hex) plus the metadata string,
optionally double-hashed. -/
def generateHashId (O : Oracles) (ent : Entropy) (off slot len : Nat) (charset : Str)
    (alg : Algorithm) (embedData : Str) (doubleHash : Bool) : Option Str :=
  let input := bytesToHex (takeBytes ent off 64) ++ embedData
  let h0 := O.hashO alg (strBytes input)
  let h := if doubleHash then O.hashO alg h0 else h0
  bufferToBase h charset len (ent.padIdx slot)

/-- `generateHmacId`. -/
def generateHmacId (O : Oracles) (ent : Entropy) (off slot len : Nat) (charset : Str)
    (secret salt pepper : Str) (alg : Algorithm) (embedData : Str) : Option Str :=
  let key := deriveKeyStr O secret salt pepper alg
  let data := bytesToHex (takeBytes ent off 64) ++ salt ++ embedData
  bufferToBase (O.hmacO alg key (strBytes data)) charset len (ent.padIdx slot)

/-- `generateHmacHashId`. -/
def generateHmacHashId (O : Oracles) (ent : Entropy) (off slot len : Nat) (charset : Str)
    (alg : Algorithm) (secret salt pepper embedData : Str) (doubleHash : Bool) : Option Str :=
  let randomData := bytesToHex (takeBytes ent off 64) ++ embedData
  let h0 := O.hashO alg (strBytes randomData)
  let h := if doubleHash then O.hashO alg h0 else h0
  let key := deriveKeyStr O secret salt pepper alg
  bufferToBase (O.hmacO alg key h) charset len (ent.padIdx slot)

/-- `generateMemoryHardId`. -/
def generateMemoryHardId (O : Oracles) (ent : Entropy) (off slot len : Nat) (charset : Str)
    (secret embedData : Str) (memoryHard : Bool) : Option Str :=
  let input := bytesToHex (takeBytes ent off 64) ++ embedData
  let iterations := if memoryHard then 100000 else 10000
  bufferToBase (O.pbkdf2O input secret iterations) charset len (ent.padIdx slot)

/-- `generateHybridId`: first half random, second half HMAC (with a secret)
or hash; the second generator's 64-byte draw follows the first one's draws in
the CSPRNG stream. -/
def generateHybridId (O : Oracles) (ent : Entropy) (off len : Nat) (charset : Str)
    (alg : Algorithm) (secret salt pepper embedData : Str) : Option Str :=
  let halfLength := (len + 1) / 2
  match generateRandomId ent off 0 halfLength charset false false with
  | none => none
  | some randomPart =>
    match (if secret ≠ [] then
        generateHmacId O ent (off + 2 * halfLength) 1 (len - halfLength) charset secret salt
          pepper alg embedData
      else
        generateHashId O ent (off + 2 * halfLength) 1 (len - halfLength) charset alg embedData
          false) with
    | none => none
    | some hashPart => some (randomPart ++ hashPart)

/-- One checksum block: hash-or-HMAC of `id + i.toString()`, hex, truncated
to `len` characters, uppercased.  This formula appears verbatim in both
`addChecksums` and `verifyChecksum`. -/
def checksumBlock (O : Oracles) (alg : Algorithm) (secret : Str) (len : Nat)
    (id : Str) (i : Nat) : Str :=
  let data := id ++ natToBase 10 i
  let digest := if secret ≠ [] then O.hmacO alg secret (strBytes data)
    else O.hashO alg (strBytes data)
  toUpper ((bytesToHex digest).take len)

/-- The explicit-position insertion loop of `addChecksums`: each block is
spliced at its declared position plus the cumulative length of the
previously inserted blocks. -/
def insertChecksumBlocks (id : Str) (checksums : List Str) (ps : List Nat) : Str :=
  ((checksums.zip ps).foldl
    (fun st bp =>
      let pos : Int := ((bp.2 + st.2 : Nat) : Int)
      (jsSlice st.1 0 pos ++ bp.1 ++ jsSliceFrom st.1 pos, st.2 + bp.1.length))
    (id, 0)).1

/-- `addChecksums`. -/
def addChecksums (O : Oracles) (id : Str) (count len : Nat) (pos : ChecksumPosition)
    (alg : Algorithm) (secret : Str) : Str :=
  let checksums := (List.range count).map (checksumBlock O alg secret len id)
  match pos with
  | .explicit ps => insertChecksumBlocks id checksums ps
  | .start => checksums.flatten ++ id
  | .middle =>
    let mid := id.length / 2
    jsSlice id 0 (mid : Int) ++ checksums.flatten ++ jsSliceFrom id (mid : Int)
  | .atEnd => id ++ checksums.flatten

/-- Total width of the enabled checksum blocks. -/
def checksumTotalLen (cfg : Config) : Nat :=
  if cfg.checksum then cfg.checksumCount * cfg.checksumLength else 0

/-- Total fixed width reserved for the enabled metadata fragments. -/
def metaFragmentsLen (cfg : Config) : Nat :=
  (if cfg.security.embedExpiry then 10 else 0) +
  (if cfg.security.embedGeo then 8 else 0) +
  (if cfg.security.deviceBinding then 12 else 0)

/-- The core length the generator computes:
`Math.max(8, length - metadataLength)`. -/
def coreLen (cfg : Config) : Nat :=
  max 8 (cfg.length - (checksumTotalLen cfg + metaFragmentsLen cfg))

/-- The `embedData` metadata string, in embedding order. -/
def embedDataStr (O : Oracles) (ent : Entropy) (sec : SecurityOptions) : Str :=
  (if sec.timestampEmbed then natToBase 36 ent.now else []) ++
  (if sec.counterEmbed then natToBase 36 ent.counter else []) ++
  (if sec.embedExpiry ∧ ttlTruthy sec.ttl then embedExpiryStr ent.now (sec.ttl.getD 0) else []) ++
  (if sec.embedGeo ∧ sec.geoRegion ≠ [] then embedGeoRegion sec.geoRegion else []) ++
  (if sec.deviceBinding ∧ sec.deviceId ≠ [] then embedDeviceId O sec.deviceId else [])

/-- The payload dispatch over `mode` (stream offset 0: the payload draws are
the run's first CSPRNG reads). -/
def generateCore (O : Oracles) (cfg : Config) (ent : Entropy) (charset : Str)
    (coreIdLength : Nat) (embedData : Str) : Option Str :=
  match cfg.mode with
  | .random =>
    generateRandomId ent 0 0 coreIdLength charset cfg.security.enhanceEntropy cfg.security.reseed
  | .hash =>
    generateHashId O ent 0 0 coreIdLength charset cfg.algorithm embedData cfg.security.doubleHash
  | .hmac =>
    generateHmacId O ent 0 0 coreIdLength charset cfg.secret cfg.salt cfg.pepper cfg.algorithm
      embedData
  | .hybrid =>
    generateHybridId O ent 0 coreIdLength charset cfg.algorithm cfg.secret cfg.salt cfg.pepper
      embedData
  | .hmacHash =>
    generateHmacHashId O ent 0 0 coreIdLength charset cfg.algorithm cfg.secret cfg.salt cfg.pepper
      embedData cfg.security.doubleHash
  | .memoryHard =>
    generateMemoryHardId O ent 0 0 coreIdLength charset cfg.secret embedData
      cfg.security.memoryHard

/-- CSPRNG offset of collision-retry number `attempts`: past every earlier
draw (the initial payload consumes at most `8·core + 96` bytes, each retry
`2·core`). -/
def retryOff (coreIdLength attempts : Nat) : Nat :=
  (8 * coreIdLength + 96) + attempts * (2 * coreIdLength)

/-- The collision-detection retry loop: while the candidate collides and
fewer than 10 attempts were made, regenerate the core with `generateRandomId`
(no case transform — the source skips it on retries) and re-apply checksums;
reaching 10 attempts is fatal.  Recursion is on the remaining attempts
(`remaining = 10 - attempts`); at `remaining = 0` the loop exit test
`attempts >= maxAttempts` throws unconditionally. -/
def collisionLoop (O : Oracles) (cfg : Config) (ent : Entropy) (charset : Str)
    (coreIdLength : Nat) : Nat → Str → Except GenErr Str
  | 0, _ => .error .collisionExhausted
  | remaining + 1, finalId =>
    if ent.collision finalId then
      let attempts := 10 - (remaining + 1)
      match generateRandomId ent (retryOff coreIdLength attempts) (2 + attempts) coreIdLength
          charset cfg.security.enhanceEntropy cfg.security.reseed with
      | none => .error .encodingFailure
      | some idCore =>
        let finalId' := if cfg.checksum then
            addChecksums O idCore cfg.checksumCount cfg.checksumLength cfg.checksumPosition
              cfg.algorithm cfg.secret
          else idCore
        collisionLoop O cfg ent charset coreIdLength remaining finalId'
    else .ok finalId

/-- The formatting tail of `generateId`: steganography, separators, and the
prefix/suffix framing applied to the candidate identifier. -/
def formatId (cfg : Config) (afterColl : Str) : Str :=
  let sec := cfg.security
  let withSteg := if sec.steganography ∧ sec.hiddenData ≠ [] then
      embedHiddenData afterColl sec.hiddenData
    else afterColl
  let withSep := if cfg.separator ≠ [] then
      insertSeparators withSteg cfg.separator cfg.separatorLength
    else withSteg
  let withPfx := if cfg.pfx ≠ [] then cfg.pfx ++ cfg.separator ++ withSep else withSep
  if cfg.suffix ≠ [] then withPfx ++ cfg.separator ++ cfg.suffix else withPfx

/-- `generateId` (the synchronous path: post-quantum algorithms and quantum
RNG are rejected before this function by the sync wrapper; the length < 8
console warning, audit logging and deferred secure deletion are external
effects that do not touch the returned string). -/
def generateId (O : Oracles) (cfg : Config) (ent : Entropy) : Except GenErr Str :=
  let sec := cfg.security
  if sec.rateLimit ∧ ¬ ent.rateLimitOk then .error .rateLimited
  else if (cfg.mode = .hmac ∨ cfg.mode = .hmacHash ∨ cfg.mode = .memoryHard) ∧ cfg.secret = []
    then .error (.secretRequired cfg.mode)
  else if sec.embedExpiry ∧ ¬ ttlTruthy sec.ttl then .error .ttlRequired
  else if sec.deviceBinding ∧ sec.deviceId = [] then .error .deviceIdRequired
  else
    let charset := getCharset sec.avoidAmbiguousChars sec.enforceCharset
    let coreIdLength := coreLen cfg
    let embedData := embedDataStr O ent sec
    match generateCore O cfg ent charset coreIdLength embedData with
    | none => .error .encodingFailure
    | some idCore0 =>
      let idCore := applyCase idCore0 cfg.caseType
      let withCk := if cfg.checksum then
          addChecksums O idCore cfg.checksumCount cfg.checksumLength cfg.checksumPosition
            cfg.algorithm cfg.secret
        else idCore
      (if sec.collisionDetection then collisionLoop O cfg ent charset coreIdLength 10 withCk
       else .ok withCk).map (formatId cfg)

/- ============ Parser / verification (src/helpers.ts) ============ -/

/-- Leading-frame stripping step of `extractCoreId`/`extractChecksums`: try
the frame string followed by the separator, then the frame string alone;
otherwise leave the input unchanged. -/
def stripPfxStep (cfg : Config) (id : Str) : Str :=
  if cfg.pfx ≠ [] then
    let withSep := cfg.pfx ++ cfg.separator
    if withSep.isPrefixOf id then id.drop withSep.length
    else if cfg.pfx.isPrefixOf id then id.drop cfg.pfx.length
    else id
  else id

/-- Suffix stripping step (`slice(0, -suffixWithSep.length)` drops that many
characters from the end). -/
def stripSuffixStep (cfg : Config) (id : Str) : Str :=
  if cfg.suffix ≠ [] then
    let withSep := cfg.separator ++ cfg.suffix
    if withSep.isSuffixOf id then id.take (id.length - withSep.length)
    else if cfg.suffix.isSuffixOf id then id.take (id.length - cfg.suffix.length)
    else id
  else id

/-- Separator stripping step: `coreId.split(separator).join('')`. -/
def stripSepStep (cfg : Config) (id : Str) : Str :=
  if cfg.separator ≠ [] then (jsSplit id cfg.separator).flatten else id

/-- Checksum stripping step of `extractCoreId`.  Explicit positions are
processed in descending order at their raw declared offsets; `middle`
re-derives the insertion midpoint from the content length
(`Math.floor` of a possibly negative value, hence `Int.fdiv`).  The `end`
branch is `coreId.slice(0, -totalChecksumLength)` with full JS semantics:
`-0` normalizes to `+0`, so a zero total checksum width yields `slice(0, 0)`,
the empty string, not the whole string. -/
def stripChecksumStep (cfg : Config) (id : Str) : Str :=
  if cfg.checksum then
    let total := cfg.checksumCount * cfg.checksumLength
    match cfg.checksumPosition with
    | .explicit ps =>
      (sortDesc ps).foldl
        (fun r pos =>
          if pos < r.length then
            jsSlice r 0 ((pos : Nat) : Int) ++ jsSliceFrom r ((pos + cfg.checksumLength : Nat) : Int)
          else r)
        id
    | .start => id.drop total
    | .middle =>
      let mid := Int.fdiv ((id.length : Int) - (total : Int)) 2
      jsSlice id 0 mid ++ jsSliceFrom id (mid + (total : Int))
    | .atEnd => jsSlice id 0 (-(total : Int))
  else id

/-- `extractCoreId`. -/
def extractCoreId (cfg : Config) (id : Str) : Str :=
  stripChecksumStep cfg (stripSepStep cfg (stripSuffixStep cfg (stripPfxStep cfg id)))

/-- `extractChecksums`: strip framing and separators, then read the blocks.
For explicit positions each block is read at its raw declared offset (when
in range); for the named positions the block offsets are re-derived from the
content length. -/
def extractChecksums (cfg : Config) (id : Str) : List Str :=
  if cfg.checksum = false then []
  else
    let w := stripSepStep cfg (stripSuffixStep cfg (stripPfxStep cfg id))
    match cfg.checksumPosition with
    | .explicit ps =>
      (ps.filter (fun pos => pos < w.length)).map
        (fun pos => jsSlice w ((pos : Nat) : Int) ((pos + cfg.checksumLength : Nat) : Int))
    | .start =>
      (List.range cfg.checksumCount).map
        (fun i => jsSlice w ((i * cfg.checksumLength : Nat) : Int)
          (((i + 1) * cfg.checksumLength : Nat) : Int))
    | .middle =>
      let mid := Int.fdiv ((w.length : Int) - (cfg.checksumCount * cfg.checksumLength : Int)) 2
      (List.range cfg.checksumCount).map
        (fun i => jsSlice w (mid + (i * cfg.checksumLength : Int))
          (mid + ((i + 1) * cfg.checksumLength : Int)))
    | .atEnd =>
      let startPos := (w.length : Int) - (cfg.checksumCount * cfg.checksumLength : Int)
      (List.range cfg.checksumCount).map
        (fun i => jsSlice w (startPos + (i * cfg.checksumLength : Int))
          (startPos + ((i + 1) * cfg.checksumLength : Int)))

/-- `verifyChecksum`: recompute each expected block from the recovered core
and compare timing-safely.  Every operation in the source's try block is
total, so its catch is dead code and the function returns a plain boolean. -/
def verifyChecksum (O : Oracles) (cfg : Config) (id : Str) : Bool :=
  if cfg.checksum = false then true
  else
    let coreId := extractCoreId cfg id
    let extracted := extractChecksums cfg id
    if extracted.length ≠ cfg.checksumCount then false
    else
      (List.range cfg.checksumCount).all fun i =>
        timingSafeEqual (toUpper (extracted.getD i []))
          (checksumBlock O cfg.algorithm cfg.secret cfg.checksumLength coreId i)

/-- Verification failures that surface as thrown exceptions. -/
inductive VerifyErr
  | hmacSecretRequired
deriving DecidableEq

/-- `verifyHmac`: throws when no secret is supplied (before its try block);
the try-block body itself is total. -/
def verifyHmacE (O : Oracles) (cfg : Config) (id secret : Str) : Except VerifyErr Bool :=
  if secret = [] then .error .hmacSecretRequired
  else
    .ok (
      let coreId := extractCoreId cfg id
      let key := deriveKeyStr O secret cfg.salt cfg.pepper cfg.algorithm
      let computedHmac := bytesToHex (O.hmacO cfg.algorithm key (strBytes coreId))
      let idHex := bytesToHex (strBytes coreId)
      let m := min computedHmac.length idHex.length
      timingSafeEqual (computedHmac.take m) (idHex.take m))

/-- Characters matched by `/[a-z0-9]/i`. -/
def alnum (c : Char) : Bool :=
  ('a' ≤ c && c ≤ 'z') || ('A' ≤ c && c ≤ 'Z') || ('0' ≤ c && c ≤ '9')

/-- Characters matched by `/[a-f0-9]/i`. -/
def hexish (c : Char) : Bool :=
  ('a' ≤ c && c ≤ 'f') || ('A' ≤ c && c ≤ 'F') || ('0' ≤ c && c ≤ '9')

/-- First match of `/[p]{lo,hi}/`: scan left to right for a position whose
run of `p`-characters reaches `lo`, and take at most `hi` of them. -/
def matchRun (p : Char → Bool) (lo hi : Nat) : Str → Option Str
  | [] => none
  | c :: rest =>
    let run := (c :: rest).takeWhile p
    if lo ≤ run.length then some (run.take hi) else matchRun p lo hi rest

/-- `verifyDeviceId`: the embedded 12-character fragment against the expected
device hash (`crypto.timingSafeEqual` on the equal-length strings produced at
its call sites). -/
def verifyDeviceIdB (O : Oracles) (embedded deviceId : Str) : Bool :=
  embedded == embedDeviceId O deviceId

/-- One multi-factor verification method. -/
def verifySingleMethod (O : Oracles) (now : Nat) (cfg : Config) (id : Str) :
    VMethod → Except VerifyErr Bool
  | .checksum => .ok (if cfg.checksum then verifyChecksum O cfg id else true)
  | .hmac => if cfg.secret ≠ [] then verifyHmacE O cfg id cfg.secret else .ok true
  | .timestamp => .ok true
  | .signature => .ok true
  | .expiry =>
    if cfg.security.embedExpiry then
      match matchRun alnum 8 12 (extractCoreId cfg id) with
      | some s => .ok (!(isExpiredAt now s))
      | none => .ok false
    else .ok true
  | .device =>
    if cfg.security.deviceBinding ∧ cfg.security.deviceId ≠ [] then
      match matchRun hexish 12 12 (extractCoreId cfg id) with
      | some s => .ok (verifyDeviceIdB O s cfg.security.deviceId)
      | none => .ok false
    else .ok true
  | .geo =>
    if cfg.security.embedGeo ∧ cfg.security.geoRegion ≠ [] then
      match matchRun alnum 8 8 (extractCoreId cfg id) with
      | some s => .ok (extractGeoRegion s == cfg.security.geoRegion)
      | none => .ok true
    else .ok true

/-- The multi-factor loop: first failing method wins. -/
def runMethods (O : Oracles) (now : Nat) (cfg : Config) (id : Str) :
    List VMethod → Except VerifyErr Bool
  | [] => .ok true
  | m :: ms =>
    (verifySingleMethod O now cfg id m).bind fun b =>
      if b then runMethods O now cfg id ms else .ok false

/-- The body of `verifyId` inside its try block; `rev` is the revocation-list
membership (a synchronous list: an asynchronous one throws, which the
outermost catch would also turn into `false`). -/
def verifyIdE (O : Oracles) (rev : Str → Bool) (now : Nat) (cfg : Config) (id : Str) :
    Except VerifyErr Bool :=
  let sec := cfg.security
  if sec.checkRevocation ∧ rev id then .ok false
  else if sec.verifyMultiFactor ≠ [] then
    runMethods O now cfg id sec.verifyMultiFactor
  else if cfg.checksum ∧ ¬ verifyChecksum O cfg id then .ok false
  else
    (if cfg.secret ≠ [] ∧ (cfg.mode = .hmac ∨ cfg.mode = .hmacHash) then
        verifyHmacE O cfg id cfg.secret
      else .ok true).bind fun hm =>
      if ¬ hm then .ok false
      else if sec.embedExpiry &&
          (match matchRun alnum 8 12 (extractCoreId cfg id) with
           | some s => isExpiredAt now s
           | none => false) then .ok false
      else if sec.deviceBinding && !sec.deviceId.isEmpty &&
          (match matchRun hexish 12 12 (extractCoreId cfg id) with
           | some s => !verifyDeviceIdB O s sec.deviceId
           | none => true) then .ok false
      else
        match cfg.originalId with
        | some orig => .ok (timingSafeEqual id orig)
        | none => .ok true

/-- The catch of `verifyId`: any escaped exception becomes `false`. -/
def catchFalse : Except VerifyErr Bool → Bool
  | .ok b => b
  | .error _ => false

/-- `verifyId`. -/
def verifyId (O : Oracles) (rev : Str → Bool) (now : Nat) (cfg : Config) (id : Str) : Bool :=
  catchFalse (verifyIdE O rev now cfg id)

/-- `parseId`. -/
def parseId (cfg : Config) (id : Str) :
    Str × Option Str × Option Str × Str × Option (List Str) × Nat :=
  (id, if cfg.pfx ≠ [] then some cfg.pfx else none,
   if cfg.suffix ≠ [] then some cfg.suffix else none,
   extractCoreId cfg id,
   if cfg.checksum then some (extractChecksums cfg id) else none,
   id.length)

/- ============ Validity predicates and concrete instances ============ -/

/-- The charset a configuration generates over. -/
def charsetOf (cfg : Config) : Str :=
  getCharset cfg.security.avoidAmbiguousChars cfg.security.enforceCharset

/-- Uppercase hex digits, the characters of checksum blocks. -/
def hexUpperChars : Str := str "0123456789ABCDEF"

/-- Every character that can occur in the content part (between framing) of a
generated identifier: charset characters in any applied case, plus checksum
hex. -/
def contentChars (cfg : Config) : Str :=
  charsetOf cfg ++ toUpper (charsetOf cfg) ++ toLower (charsetOf cfg) ++ hexUpperChars

/-- A valid configuration for round-trip extraction: non-empty charset, no
steganographic mangling, a separator (when used) with a positive stride whose
characters cannot occur in the identifier content, and checksum options in
their documented ranges (block length 1–64; explicit positions one per block
and within the core, per the spec's position invariant). -/
def ValidConfig (cfg : Config) : Prop :=
  charsetOf cfg ≠ [] ∧
  cfg.security.steganography = false ∧
  (cfg.separator ≠ [] → 1 ≤ cfg.separatorLength ∧ ∀ c ∈ cfg.separator, c ∉ contentChars cfg) ∧
  (cfg.checksum = true → 1 ≤ cfg.checksumLength ∧ cfg.checksumLength ≤ 64 ∧
    ∀ ps, cfg.checksumPosition = .explicit ps →
      ps.length = cfg.checksumCount ∧ ∀ p ∈ ps, p + cfg.checksumLength ≤ coreLen cfg)

/-- Entropy streams as the runtime delivers them: CSPRNG output bytes, and
`randomInt(0, charset.length)` pad draws below the charset size. -/
def ValidEntropy (cfg : Config) (ent : Entropy) : Prop :=
  (∀ i, ent.bytes i < 256) ∧ (∀ s j, ent.padIdx s j < (charsetOf cfg).length)

/-- Value of a digit string under a charset (most significant first), for
stating that `bufferToBase` digits really are the remainder sequence. -/
def digitsVal (cs ds : Str) : Nat :=
  ds.foldl (fun a c => a * cs.length + cs.indexOf c) 0

/-- All-zero entropy (CSPRNG stream of zero bytes, pad draws of index 0): a
fixed representative random draw for concrete runs. -/
def entZero : Entropy where
  bytes := fun _ => 0
  padIdx := fun _ _ => 0
  now := 0
  counter := 0
  collision := fun _ => false
  rateLimitOk := true

/-- The claim C1 option record: two 2-character checksum blocks at explicit
positions 1 and 3. -/
def cfgC1 : Config :=
  { checksum := true, checksumCount := 2, checksumLength := 2,
    checksumPosition := .explicit [1, 3] }

/-- The claim C2 scenario configuration. -/
def cfgC2 : Config :=
  { length := 10, checksum := true, checksumCount := 2, checksumLength := 2,
    security := { timestampEmbed := true, embedExpiry := true, ttl := some 3600 } }

/-- The claim C3 failing configuration (the repository's own test 6): two
2-character checksum blocks at explicit positions 5 and 10 in a 20-character
identifier. -/
def cfgC3 : Config :=
  { length := 20, checksum := true, checksumCount := 2, checksumLength := 2,
    checksumPosition := .explicit [5, 10] }

/-- The claim C6 configuration. -/
def cfgC6 : Config :=
  { length := 20, checksum := true, checksumCount := 2, checksumLength := 2 }

/-- A feature-rich valid configuration for the C5 witness: middle-position
checksums, separator, prefix and suffix framing. -/
def cfgC5W : Config :=
  { length := 20, checksum := true, checksumCount := 2, checksumLength := 2,
    checksumPosition := .middle, separator := str "-", separatorLength := 5,
    pfx := str "USER", suffix := str "OK" }

/-- A configuration with checksums enabled but a zero block count: the total
checksum width is 0, generation inserts nothing, and end-position extraction
computes `slice(0, -0)` = `slice(0, 0)` — the empty string. -/
def cfgC5X : Config :=
  { length := 20, checksum := true, checksumCount := 0, checksumLength := 2 }

end Sig

/- ===================== Theorems ===================== -/

namespace Sig

/-- Sanity check of the SHA-256 implementation against the FIPS 180-4
one-block test vector for the message "abc". -/
theorem sha256_abc_vector :
    bytesToHex (sha256 (strBytes (str "abc"))) =
      str "ba7816bf8f01cfea414140de5dae2223b00361a396177a9cb410ff61f20015ad" := by
  decide

/-- Claim C1 (code bug): inserting the blocks "XX","YY" into the 6-character
core "abcdef" at the ascending explicit positions [1, 3] (block length 2,
core length 6 ≥ 3 + 2) places them with cumulative offsets, producing
"aXXbcYYdef" — but extraction reads at the raw declared positions and returns
["XX", "bc"], not the original blocks: extraction does not re-derive the
cumulative insertion offsets, contradicting the claim, the spec's position
invariant, and the repository's own round-trip tests. -/
theorem C1_explicit_positions_not_inverted :
    insertChecksumBlocks (str "abcdef") [str "XX", str "YY"] [1, 3] = str "aXXbcYYdef" ∧
    extractChecksums cfgC1 (str "aXXbcYYdef") = [str "XX", str "bc"] ∧
    str "bc" ≠ str "YY" := by
  decide

set_option maxRecDepth 10000 in
/-- Claim C2 (code bug): the claim's exact scenario configuration
(length 10, two 2-character checksums, timestamp + expiry embedding with
`ttl = 3600`) does not raise a configuration error; the generator floors the
core at 8 characters and returns a 12-character identifier (run here on the
all-zero entropy draw). -/
theorem C2_insufficient_length_not_rejected :
    (generateId realOracles cfgC2 entZero).toOption.map List.length = some 12 := by
  decide

set_option maxRecDepth 10000 in
/-- Claim C3 (code bug): on the repository's own test-6 configuration
(explicit positions [5, 10], two 2-character blocks, length 20),
`verifyChecksum` rejects a freshly generated identifier (all-zero entropy
draw), because explicit-position extraction reads raw positions while
insertion used cumulative offsets. -/
theorem C3_fresh_id_fails_verification :
    (generateId realOracles cfgC3 entZero).toOption.map
      (fun id => verifyChecksum realOracles cfgC3 id) = some false := by
  decide

/-- Claim C4, counterexample: `verifyHmac` with an empty secret throws
(`Secret is required for HMAC verification`) instead of returning false, so
the verification functions are not exception-free on every input. -/
theorem C4_verifyHmac_throws_on_empty_secret :
    verifyHmacE realOracles {} (str "ABC") [] = .error .hmacSecretRequired := rfl

/-- Claim C8, counterexample: on the empty byte buffer the encoder throws
(`BigInt('0x' + '')` is a SyntaxError) rather than returning a string of the
requested length. -/
theorem C8_empty_buffer_throws :
    bufferToBase [] (str "AB") 5 (fun _ => 0) = none := by
  decide

end Sig

/- ===================== Lemma layer: strings and encoding ===================== -/

namespace Sig

theorem toUpper_length (s : Str) : (toUpper s).length = s.length := List.length_map s upChar

theorem applyCase_length (s : Str) (ct : CaseType) : (applyCase s ct).length = s.length := by
  cases ct <;> simp [applyCase, toUpper, toLower]

theorem take_clamp {α : Type} (s : List α) (b : Nat) : s.take (min b s.length) = s.take b := by
  rcases Nat.le_total b s.length with h | h
  · rw [Nat.min_eq_left h]
  · rw [Nat.min_eq_right h, List.take_length, List.take_of_length_le h]

theorem jsClamp_natCast (len n : Nat) : jsClamp len (n : Int) = min n len := by
  simp [jsClamp]

theorem jsSlice_natCast (s : Str) (a b : Nat) : jsSlice s (a : Int) (b : Int) = (s.take b).drop a := by
  rw [jsSlice, jsClamp_natCast, jsClamp_natCast, take_clamp]
  rcases Nat.le_total a s.length with h | h
  · rw [Nat.min_eq_left h]
  · rw [Nat.min_eq_right h]
    have h1 : (s.take b).length ≤ s.length := by
      simp only [List.length_take]; omega
    rw [List.drop_eq_nil_of_le h1, List.drop_eq_nil_of_le (le_trans h1 h)]

theorem jsSliceFrom_natCast (s : Str) (a : Nat) : jsSliceFrom s (a : Int) = s.drop a := by
  rw [jsSliceFrom]
  have : ((s.length : Nat) : Int) = ((s.length : Nat) : Int) := rfl
  rw [show ((s.length : Nat) : Int) = ((s.length : Nat) : Int) from rfl] at this
  rw [show jsSlice s (a : Int) (s.length : Int) = (s.take s.length).drop a from
    jsSlice_natCast s a s.length]
  rw [List.take_length]

theorem padLoop_eq (cs : Str) (pad : Nat → Nat) :
    ∀ cap j acc, padLoop cs pad j cap acc =
      ((List.range cap).map (fun i => cs.getD (pad (j + cap - 1 - i)) '?')) ++ acc := by
  intro cap
  induction cap with
  | zero => intro j acc; simp [padLoop]
  | succ n ih =>
    intro j acc
    rw [padLoop, ih (j + 1)]
    rw [List.range_succ, List.map_append]
    simp only [List.map_cons, List.map_nil, List.append_assoc, List.cons_append,
      List.nil_append, List.singleton_append]
    congr 1
    · apply List.map_congr_left
      intro i _
      have h1 : j + 1 + n - 1 - i = j + (n + 1) - 1 - i := by omega
      rw [h1]
    · have h2 : j + (n + 1) - 1 - n = j := by omega
      rw [h2]

theorem padLoop_length (cs : Str) (pad : Nat → Nat) (cap j : Nat) (acc : Str) :
    (padLoop cs pad j cap acc).length = cap + acc.length := by
  rw [padLoop_eq]; simp

theorem digitsLoop_parts (cs : Str) :
    ∀ cap num (acc : Str), ∃ ds : Str,
      digitsLoop cs.length cs cap num acc = ds ++ acc ∧ ds.length ≤ cap ∧
      (cs ≠ [] → ∀ c ∈ ds, c ∈ cs) := by
  intro cap
  induction cap with
  | zero => intro num acc; exact ⟨[], by simp [digitsLoop], by simp, by simp⟩
  | succ n ih =>
    intro num acc
    by_cases h0 : num = 0
    · exact ⟨[], by simp [digitsLoop, h0], by simp, by simp⟩
    · obtain ⟨ds', hEq, hLen, hMem⟩ := ih (num / cs.length) (cs.getD (num % cs.length) '?' :: acc)
      refine ⟨ds' ++ [cs.getD (num % cs.length) '?'], ?_, ?_, ?_⟩
      · rw [digitsLoop, if_neg h0, hEq]; simp
      · simp; omega
      · intro hcs c hc
        rcases List.mem_append.mp hc with h | h
        · exact hMem hcs c h
        · have : c = cs.getD (num % cs.length) '?' := by simpa using h
          subst this
          have hlt : num % cs.length < cs.length :=
            Nat.mod_lt _ (List.length_pos.mpr hcs)
          rw [List.getD_eq_getElem _ _ hlt]
          exact List.getElem_mem hlt

theorem bufferToBase_eq_some {buf : List Nat} {cs : Str} {len : Nat} {pad : Nat → Nat} {s : Str}
    (h : bufferToBase buf cs len pad = some s) :
    s.length = len ∧ ((∀ j, pad j < cs.length) → cs ≠ [] → ∀ c ∈ s, c ∈ cs) := by
  by_cases hb : buf.isEmpty
  · rw [bufferToBase, if_pos hb] at h; exact absurd h (by simp)
  · rw [bufferToBase, if_neg hb] at h
    obtain ⟨ds, hEq, hLen, hMem⟩ :=
      digitsLoop_parts cs len (hexToNat (bytesToHex buf)) []
    rw [List.append_nil] at hEq
    simp only [hEq] at h
    have hr := padLoop_length cs pad (len - ds.length) 0 ds
    have hrlen : (padLoop cs pad 0 (len - ds.length) ds).length = len := by omega
    have hs : s = (padLoop cs pad 0 (len - ds.length) ds).take len := by
      exact (Option.some.injEq _ _ ▸ h).symm
    constructor
    · rw [hs, List.length_take, hrlen, Nat.min_self]
    · intro hpad hcs c hc
      rw [hs] at hc
      have hc' := List.mem_of_mem_take hc
      rw [padLoop_eq] at hc'
      rcases List.mem_append.mp hc' with h' | h'
      · obtain ⟨i, _, hi⟩ := List.mem_map.mp h'
        have hlt : pad (0 + (len - ds.length) - 1 - i) < cs.length := hpad _
        rw [List.getD_eq_getElem _ _ hlt] at hi
        rw [← hi]
        exact List.getElem_mem hlt
      · exact hMem hcs c h'

theorem bufferToBase_isSome {buf : List Nat} (cs : Str) (len : Nat) (pad : Nat → Nat)
    (hb : buf ≠ []) : ∃ s, bufferToBase buf cs len pad = some s := by
  rw [bufferToBase, if_neg (by simpa using hb)]
  exact ⟨_, rfl⟩

end Sig

/- ===================== Lemma layer: separators ===================== -/

namespace Sig

theorem chunksGo_flatten (stride : Nat) (hs : 1 ≤ stride) :
    ∀ (fuel : Nat) (s : Str), s.length ≤ fuel → (chunksGo stride fuel s).flatten = s := by
  intro fuel
  induction fuel with
  | zero =>
    intro s h
    have : s = [] := List.eq_nil_of_length_eq_zero (Nat.le_antisymm h (Nat.zero_le _))
    subst this; simp [chunksGo]
  | succ n ih =>
    intro s h
    by_cases he : s.isEmpty
    · rw [List.isEmpty_iff] at he; subst he; simp [chunksGo]
    · rw [chunksGo, if_neg he]
      rw [List.flatten_cons, ih (s.drop stride) ?_, List.take_append_drop]
      have : s ≠ [] := by simpa [List.isEmpty_iff] using he
      have hpos : 1 ≤ s.length := List.length_pos.mpr this
      simp only [List.length_drop]
      omega

theorem chunksGo_chars (stride : Nat) :
    ∀ (fuel : Nat) (s chunk : Str), chunk ∈ chunksGo stride fuel s → ∀ c ∈ chunk, c ∈ s := by
  intro fuel
  induction fuel with
  | zero => intro s chunk h; simp [chunksGo] at h
  | succ n ih =>
    intro s chunk h c hc
    by_cases he : s.isEmpty
    · rw [chunksGo, if_pos he] at h; simp at h
    · rw [chunksGo, if_neg he] at h
      rcases List.mem_cons.mp h with h' | h'
      · exact List.mem_of_mem_take (h' ▸ hc)
      · exact List.mem_of_mem_drop (ih (s.drop stride) chunk h' c hc)

theorem chunksGo_ne_nil (stride fuel : Nat) (s : Str) (hf : 1 ≤ fuel) (hs : ¬ s.isEmpty) :
    chunksGo stride fuel s ≠ [] := by
  cases fuel with
  | zero => omega
  | succ n => rw [chunksGo, if_neg hs]; simp

theorem splitGo_walk (sep : Str) (hsep : sep ≠ []) :
    ∀ (c : Str) (k : Nat) (rest cur : Str), (∀ a ∈ c, a ∉ sep) →
      splitGo sep (c.length + k) (c ++ rest) cur = splitGo sep k rest (c.reverse ++ cur) := by
  intro c
  induction c with
  | nil => intro k rest cur _; simp
  | cons ch ct ih =>
    intro k rest cur h
    have hlen : (ch :: ct).length + k = (ct.length + k) + 1 := by simp [Nat.succ_add]
    rw [hlen]
    have hnp : ¬ (sep.isPrefixOf ((ch :: ct) ++ rest) = true) := by
      intro hp
      rw [List.isPrefixOf_iff_prefix] at hp
      cases sep with
      | nil => exact hsep rfl
      | cons s0 ss =>
        rw [List.cons_append, List.cons_prefix_cons] at hp
        exact (h ch (List.mem_cons_self _ _)) (hp.1 ▸ List.mem_cons_self _ _)
    rw [splitGo.eq_def]
    dsimp only
    rw [if_neg hnp]
    simp only [List.cons_append]
    rw [ih k rest (ch :: cur) (fun a ha => h a (List.mem_cons_of_mem _ ha))]
    simp

theorem splitGo_emit (sep : Str) (k : Nat) (t cur : Str) :
    splitGo sep (k + 1) (sep ++ t) cur = cur.reverse :: splitGo sep k t [] := by
  rw [splitGo.eq_def]
  dsimp only
  rw [if_pos, List.drop_left]
  rw [List.isPrefixOf_iff_prefix]
  exact List.prefix_append _ _

theorem splitGo_nil_input (sep : Str) (_hsep : sep ≠ []) (k : Nat) (cur : Str) :
    splitGo sep (k + 1) [] cur = [cur.reverse] := by
  rw [splitGo, if_neg]
  cases sep with
  | nil => exact absurd rfl _hsep
  | cons s0 ss => simp [List.isPrefixOf]

theorem splitGo_joinSep (sep : Str) (hsep : sep ≠ []) :
    ∀ (cs : List Str), cs ≠ [] → (∀ chunk ∈ cs, ∀ a ∈ chunk, a ∉ sep) →
      ∀ fuel, (joinSep sep cs).length + 1 ≤ fuel →
        splitGo sep fuel (joinSep sep cs) [] = cs := by
  intro cs
  induction cs with
  | nil => intro h; exact absurd rfl h
  | cons c cs' ih =>
    intro _ hdisj fuel hfuel
    cases cs' with
    | nil =>
      simp only [joinSep] at hfuel ⊢
      have hk : fuel = c.length + (fuel - c.length) := by omega
      rw [hk, show splitGo sep (c.length + (fuel - c.length)) c [] =
        splitGo sep (c.length + (fuel - c.length)) (c ++ []) [] by rw [List.append_nil]]
      rw [splitGo_walk sep hsep c (fuel - c.length) [] []
        (hdisj c (List.mem_cons_self _ _))]
      have hk2 : fuel - c.length = (fuel - c.length - 1) + 1 := by omega
      rw [hk2, splitGo_nil_input sep hsep]
      simp
    | cons c2 cs'' =>
      have hjoin : joinSep sep (c :: c2 :: cs'') = c ++ (sep ++ joinSep sep (c2 :: cs'')) := by
        rw [joinSep.eq_def]
        dsimp only
        simp [List.append_assoc]
      rw [hjoin]
      rw [hjoin] at hfuel
      simp only [List.length_append] at hfuel
      have hk : fuel = c.length + (fuel - c.length) := by omega
      rw [hk, splitGo_walk sep hsep c (fuel - c.length) _ [] (hdisj c (List.mem_cons_self _ _))]
      have hk2 : fuel - c.length = (fuel - c.length - 1) + 1 := by omega
      rw [hk2, splitGo_emit sep]
      simp only [List.append_nil, List.reverse_reverse]
      have hs1 : 1 ≤ sep.length := List.length_pos.mpr hsep
      have hrec := ih (List.cons_ne_nil _ _)
        (fun chunk hc a ha => hdisj chunk (List.mem_cons_of_mem _ hc) a ha)
        (fuel - c.length - 1) (by omega)
      rw [hrec]

theorem stripSep_insertSep (cfg : Config) (content : Str)
    (hstride : cfg.separator ≠ [] → 1 ≤ cfg.separatorLength)
    (hdisj : ∀ c ∈ content, c ∉ cfg.separator) (hne : content ≠ []) :
    stripSepStep cfg
      (if cfg.separator ≠ [] then
        insertSeparators content cfg.separator cfg.separatorLength else content) = content := by
  by_cases hsep : cfg.separator = []
  · rw [if_neg (by simp [hsep]), stripSepStep, if_neg (by simp [hsep])]
  · rw [if_pos hsep, stripSepStep, if_pos hsep, insertSeparators, jsSplit, if_neg hsep]
    rw [splitGo_joinSep cfg.separator hsep (jsChunks content cfg.separatorLength)
      (chunksGo_ne_nil _ _ _ (List.length_pos.mpr hne) (by simpa [List.isEmpty_iff] using hne))
      (fun chunk hc a ha =>
        hdisj a (chunksGo_chars _ _ _ _ hc a ha))
      _ (le_refl _)]
    exact chunksGo_flatten _ (hstride hsep) _ _ (le_refl _)

end Sig

/- ===================== Lemma layer: framing and checksum widths ===================== -/

namespace Sig

theorem stripPfx_constructed (cfg : Config) (s : Str) :
    stripPfxStep cfg ((if cfg.pfx ≠ [] then cfg.pfx ++ cfg.separator else []) ++ s) = s := by
  by_cases h : cfg.pfx = []
  · simp [h, stripPfxStep]
  · rw [if_pos h, stripPfxStep, if_pos h]
    have hp : (cfg.pfx ++ cfg.separator).isPrefixOf ((cfg.pfx ++ cfg.separator) ++ s) = true := by
      rw [List.isPrefixOf_iff_prefix]; exact List.prefix_append _ _
    simp only [hp, if_true, if_pos]
    exact List.drop_left _ _

theorem stripSuffix_constructed (cfg : Config) (s : Str) :
    stripSuffixStep cfg (s ++ (if cfg.suffix ≠ [] then cfg.separator ++ cfg.suffix else [])) = s := by
  by_cases h : cfg.suffix = []
  · simp [h, stripSuffixStep]
  · rw [if_pos h, stripSuffixStep, if_pos h]
    have hp : (cfg.separator ++ cfg.suffix).isSuffixOf (s ++ (cfg.separator ++ cfg.suffix)) = true := by
      rw [List.isSuffixOf_iff_suffix]; exact List.suffix_append _ _
    simp only [hp, if_true, if_pos]
    have hl : (s ++ (cfg.separator ++ cfg.suffix)).length - (cfg.separator ++ cfg.suffix).length
        = s.length := by simp
    rw [hl]
    exact List.take_left _ _

theorem formatId_eq (cfg : Config) (s : Str) (hsteg : cfg.security.steganography = false) :
    formatId cfg s =
      (if cfg.pfx ≠ [] then cfg.pfx ++ cfg.separator else []) ++
      ((if cfg.separator ≠ [] then insertSeparators s cfg.separator cfg.separatorLength else s) ++
       (if cfg.suffix ≠ [] then cfg.separator ++ cfg.suffix else [])) := by
  rw [formatId]
  simp only [hsteg, Bool.false_eq_true, false_and, if_false]
  by_cases hp : cfg.pfx = [] <;> by_cases hs : cfg.suffix = [] <;>
    simp [hp, hs, List.append_assoc]

theorem extractCoreId_formatted (cfg : Config) (s : Str)
    (hsteg : cfg.security.steganography = false)
    (hstride : cfg.separator ≠ [] → 1 ≤ cfg.separatorLength)
    (hdisj : ∀ c ∈ s, c ∉ cfg.separator) (hne : s ≠ []) :
    extractCoreId cfg (formatId cfg s) = stripChecksumStep cfg s := by
  rw [extractCoreId, formatId_eq _ _ hsteg, stripPfx_constructed, stripSuffix_constructed,
    stripSep_insertSep cfg s hstride hdisj hne]

theorem bytesToHex_length (bs : List Nat) : (bytesToHex bs).length = 2 * bs.length := by
  induction bs with
  | nil => simp [bytesToHex]
  | cons b bs ih =>
    simp only [bytesToHex, List.flatMap_cons] at ih ⊢
    simp [ih]
    omega

theorem hexDigitChar_mem (d : Nat) (hd : d < 16) : hexDigitChar d ∈ str "0123456789abcdef" := by
  have hlt : d < (str "0123456789abcdef").length := by simpa [str] using hd
  rw [hexDigitChar, List.getD_eq_getElem _ _ hlt]
  exact List.getElem_mem hlt

theorem bytesToHex_chars (bs : List Nat) (hb : ∀ b ∈ bs, b < 256) :
    ∀ c ∈ bytesToHex bs, c ∈ str "0123456789abcdef" := by
  intro c hc
  obtain ⟨b, hbm, hcm⟩ := List.mem_flatMap.mp hc
  have hb256 := hb b hbm
  rcases List.mem_cons.mp hcm with h | h
  · exact h ▸ hexDigitChar_mem _ (Nat.div_lt_of_lt_mul (by omega))
  · have h2 : c = hexDigitChar (b % 16) := List.mem_singleton.mp h
    exact h2 ▸ hexDigitChar_mem _ (Nat.mod_lt _ (by omega))

theorem upChar_hex : ∀ c ∈ str "0123456789abcdef", upChar c ∈ hexUpperChars := by
  decide

theorem digestLen_ge (alg : Algorithm) : 32 ≤ digestLen alg := by
  cases alg <;> simp [digestLen]

theorem digestLen_le (alg : Algorithm) : digestLen alg ≤ 64 := by
  cases alg <;> simp [digestLen]

theorem hmacLen_ge (alg : Algorithm) : 32 ≤ hmacLen alg := by
  cases alg <;> simp [hmacLen, digestLen]

theorem hmacLen_le (alg : Algorithm) : hmacLen alg ≤ 64 := by
  cases alg <;> simp [hmacLen, digestLen]

theorem checksumBlock_length (O : Oracles) (alg : Algorithm) (secret : Str) (len : Nat)
    (id : Str) (i : Nat) (hWF : WFOracles O) (hlen : len ≤ 64) :
    (checksumBlock O alg secret len id i).length = len := by
  rw [checksumBlock]
  by_cases hs : secret = []
  · simp only [hs, ne_eq, not_true_eq_false, if_false, if_neg]
    rw [toUpper_length, List.length_take, bytesToHex_length, (hWF.1 _ _).1]
    have := digestLen_ge alg
    omega
  · simp only [if_pos hs]
    rw [toUpper_length, List.length_take, bytesToHex_length, (hWF.2.1 _ _ _).1]
    have := hmacLen_ge alg
    omega

theorem checksumBlock_chars (O : Oracles) (alg : Algorithm) (secret : Str) (len : Nat)
    (id : Str) (i : Nat) (hWF : WFOracles O) :
    ∀ c ∈ checksumBlock O alg secret len id i, c ∈ hexUpperChars := by
  intro c hc
  rw [checksumBlock] at hc
  obtain ⟨c0, hc0, hcu⟩ := List.mem_map.mp hc
  have hc0' := List.mem_of_mem_take hc0
  by_cases hs : secret = []
  · simp only [hs, ne_eq, not_true_eq_false, if_false] at hc0'
    exact hcu ▸ upChar_hex c0 (bytesToHex_chars _ (hWF.1 _ _).2 c0 hc0')

  · simp only [if_pos hs] at hc0'
    exact hcu ▸ upChar_hex c0 (bytesToHex_chars _ (hWF.2.1 _ _ _).2 c0 hc0')

theorem blocks_flatten_length (O : Oracles) (alg : Algorithm) (secret : Str) (len count : Nat)
    (id : Str) (hWF : WFOracles O) (hlen : len ≤ 64) :
    (((List.range count).map (checksumBlock O alg secret len id)).flatten).length
      = count * len := by
  rw [List.length_flatten]
  induction count with
  | zero => simp
  | succ n ih =>
    rw [List.range_succ, List.map_append, List.map_append, List.sum_append]
    rw [ih]
    simp only [List.map_cons, List.map_nil, List.sum_cons, List.sum_nil,
      checksumBlock_length O alg secret len id n hWF hlen]
    rw [Nat.succ_mul]
    omega

theorem blocks_flatten_chars (O : Oracles) (alg : Algorithm) (secret : Str) (len count : Nat)
    (id : Str) (hWF : WFOracles O) :
    ∀ c ∈ ((List.range count).map (checksumBlock O alg secret len id)).flatten,
      c ∈ hexUpperChars := by
  intro c hc
  obtain ⟨blk, hblk, hcm⟩ := List.mem_flatten.mp hc
  obtain ⟨i, _, hib⟩ := List.mem_map.mp hblk
  exact checksumBlock_chars O alg secret len id i hWF c (hib ▸ hcm)

end Sig

/- ===================== Lemma layer: checksum placement arithmetic ===================== -/

namespace Sig

theorem jsSlice_zero_take (s : Str) (p : Nat) : jsSlice s 0 ((p : Nat) : Int) = s.take p := by
  have h := jsSlice_natCast s 0 p
  simpa using h

theorem spliceStep_length (s blk : Str) (p : Nat) :
    (jsSlice s 0 ((p : Nat) : Int) ++ blk ++ jsSliceFrom s ((p : Nat) : Int)).length
      = s.length + blk.length := by
  rw [jsSlice_zero_take, jsSliceFrom_natCast]
  simp only [List.length_append, List.length_take, List.length_drop]
  omega

theorem insertChecksumBlocks_length (id : Str) (cks : List Str) (ps : List Nat) :
    (insertChecksumBlocks id cks ps).length
      = id.length + ((cks.zip ps).map (fun bp => bp.1.length)).sum := by
  rw [insertChecksumBlocks]
  suffices h : ∀ (pairs : List (Str × Nat)) (st : Str × Nat),
      ((pairs.foldl (fun st bp =>
        (jsSlice st.1 0 (((bp.2 + st.2 : Nat) : Int)) ++ bp.1 ++
          jsSliceFrom st.1 (((bp.2 + st.2 : Nat) : Int)), st.2 + bp.1.length)) st).1).length
        = st.1.length + (pairs.map (fun bp => bp.1.length)).sum by
    exact h (cks.zip ps) (id, 0)
  intro pairs
  induction pairs with
  | nil => intro st; simp
  | cons bp pairs ih =>
    intro st
    rw [List.foldl_cons, ih]
    simp only [List.map_cons, List.sum_cons]
    rw [spliceStep_length]
    omega

theorem insertChecksumBlocks_chars (id : Str) (cks : List Str) (ps : List Nat) :
    ∀ c ∈ insertChecksumBlocks id cks ps, c ∈ id ∨ ∃ blk ∈ cks, c ∈ blk := by
  rw [insertChecksumBlocks]
  suffices h : ∀ (pairs : List (Str × Nat)) (st : Str × Nat),
      ∀ c ∈ ((pairs.foldl (fun st bp =>
        (jsSlice st.1 0 (((bp.2 + st.2 : Nat) : Int)) ++ bp.1 ++
          jsSliceFrom st.1 (((bp.2 + st.2 : Nat) : Int)), st.2 + bp.1.length)) st).1),
        c ∈ st.1 ∨ ∃ bp' ∈ pairs, c ∈ bp'.1 by
    intro c hc
    rcases h (cks.zip ps) (id, 0) c hc with h' | ⟨bp', hbp', hcb⟩
    · exact Or.inl h'
    · exact Or.inr ⟨bp'.1, (List.of_mem_zip hbp').1, hcb⟩
  intro pairs
  induction pairs with
  | nil => intro st c hc; exact Or.inl hc
  | cons bp pairs ih =>
    intro st c hc
    rcases ih _ c hc with h' | ⟨bp', hbp', hcb⟩
    · dsimp only at h'
      rw [jsSlice_zero_take, jsSliceFrom_natCast] at h'
      rcases List.mem_append.mp h' with h'' | h''
      · rcases List.mem_append.mp h'' with h3 | h3
        · exact Or.inl (List.mem_of_mem_take h3)
        · exact Or.inr ⟨bp, List.mem_cons_self _ _, h3⟩
      · exact Or.inl (List.mem_of_mem_drop h'')
    · exact Or.inr ⟨bp', List.mem_cons_of_mem _ hbp', hcb⟩

theorem zip_map_const_length {cks : List Str} {ps : List Nat} {len : Nat}
    (hlen : ∀ blk ∈ cks, blk.length = len) (hps : cks.length ≤ ps.length) :
    ((cks.zip ps).map (fun bp => bp.1.length)).sum = cks.length * len := by
  induction cks generalizing ps with
  | nil => simp
  | cons c cks ih =>
    cases ps with
    | nil => simp at hps
    | cons p ps =>
      simp only [List.zip_cons_cons, List.map_cons, List.sum_cons]
      rw [ih (fun blk hb => hlen blk (List.mem_cons_of_mem _ hb)) (by simpa using hps)]
      rw [hlen c (List.mem_cons_self _ _), List.length_cons, Nat.add_mul]
      omega

theorem addChecksums_length (O : Oracles) (id : Str) (count len : Nat)
    (pos : ChecksumPosition) (alg : Algorithm) (secret : Str)
    (hWF : WFOracles O) (hlen : len ≤ 64)
    (hexp : ∀ ps, pos = .explicit ps → count ≤ ps.length) :
    (addChecksums O id count len pos alg secret).length = id.length + count * len := by
  have hblk : ∀ blk ∈ (List.range count).map (checksumBlock O alg secret len id),
      blk.length = len := by
    intro blk hb
    obtain ⟨i, _, hib⟩ := List.mem_map.mp hb
    exact hib ▸ checksumBlock_length O alg secret len id i hWF hlen
  have hflat := blocks_flatten_length O alg secret len count id hWF hlen
  cases pos with
  | explicit ps =>
    rw [addChecksums, insertChecksumBlocks_length]
    rw [zip_map_const_length hblk (by simpa using hexp ps rfl)]
    simp
  | start => rw [addChecksums]; rw [List.length_append, hflat]; omega
  | middle =>
    rw [addChecksums]
    simp only [jsSlice_zero_take, jsSliceFrom_natCast, List.length_append, List.length_take,
      List.length_drop, hflat]
    omega
  | atEnd => rw [addChecksums]; rw [List.length_append, hflat]

theorem addChecksums_chars (O : Oracles) (id : Str) (count len : Nat)
    (pos : ChecksumPosition) (alg : Algorithm) (secret : Str) (hWF : WFOracles O) :
    ∀ c ∈ addChecksums O id count len pos alg secret, c ∈ id ∨ c ∈ hexUpperChars := by
  intro c hc
  have hblkchars := blocks_flatten_chars O alg secret len count id hWF
  cases pos with
  | explicit ps =>
    rw [addChecksums] at hc
    rcases insertChecksumBlocks_chars _ _ _ c hc with h | ⟨blk, hblk, hcb⟩
    · exact Or.inl h
    · obtain ⟨i, _, hib⟩ := List.mem_map.mp hblk
      exact Or.inr (checksumBlock_chars O alg secret len id i hWF c (hib ▸ hcb))
  | start =>
    rw [addChecksums] at hc
    rcases List.mem_append.mp hc with h | h
    · exact Or.inr (hblkchars c h)
    · exact Or.inl h
  | middle =>
    rw [addChecksums] at hc
    simp only [jsSlice_zero_take, jsSliceFrom_natCast] at hc
    rcases List.mem_append.mp hc with h | h
    · rcases List.mem_append.mp h with h' | h'
      · exact Or.inl (List.mem_of_mem_take h')
      · exact Or.inr (hblkchars c h')
    · exact Or.inl (List.mem_of_mem_drop h)
  | atEnd =>
    rw [addChecksums] at hc
    rcases List.mem_append.mp hc with h | h
    · exact Or.inl h
    · exact Or.inr (hblkchars c h)

theorem insertDesc_length (x : Nat) (l : List Nat) :
    (insertDesc x l).length = l.length + 1 := by
  induction l with
  | nil => simp [insertDesc]
  | cons y ys ih =>
    rw [insertDesc]
    by_cases h : y ≤ x
    · simp [h]
    · simp only [if_neg h, List.length_cons, ih]

theorem insertDesc_mem (x : Nat) (l : List Nat) (q : Nat) (hq : q ∈ insertDesc x l) :
    q = x ∨ q ∈ l := by
  induction l with
  | nil => simpa [insertDesc] using hq
  | cons y ys ih =>
    rw [insertDesc] at hq
    by_cases h : y ≤ x
    · rw [if_pos h] at hq
      rcases List.mem_cons.mp hq with h' | h'
      · exact Or.inl h'
      · exact Or.inr h'
    · rw [if_neg h] at hq
      rcases List.mem_cons.mp hq with h' | h'
      · exact Or.inr (h' ▸ List.mem_cons_self _ _)
      · rcases ih h' with h'' | h''
        · exact Or.inl h''
        · exact Or.inr (List.mem_cons_of_mem _ h'')

theorem sortDesc_length (l : List Nat) : (sortDesc l).length = l.length := by
  induction l with
  | nil => simp [sortDesc]
  | cons x xs ih =>
    rw [sortDesc, List.foldr_cons, insertDesc_length]
    rw [show List.foldr insertDesc [] xs = sortDesc xs from rfl, ih]
    simp

theorem sortDesc_mem (l : List Nat) (q : Nat) (hq : q ∈ sortDesc l) : q ∈ l := by
  induction l with
  | nil => simp [sortDesc] at hq
  | cons x xs ih =>
    rw [sortDesc, List.foldr_cons] at hq
    rcases insertDesc_mem _ _ _ hq with h | h
    · exact h ▸ List.mem_cons_self _ _
    · exact List.mem_cons_of_mem _ (ih h)

theorem removeFold_length (L B : Nat) (hL : 1 ≤ L) :
    ∀ (qs : List Nat) (s : Str), (∀ q ∈ qs, q + L ≤ B) → s.length = B + qs.length * L →
      ((qs.foldl (fun r pos =>
        if pos < r.length then
          jsSlice r 0 ((pos : Nat) : Int) ++ jsSliceFrom r ((pos + L : Nat) : Int)
        else r) s).length) = B := by
  intro qs
  induction qs with
  | nil => intro s _ hs; simpa using hs
  | cons q qs ih =>
    intro s hq hs
    rw [List.length_cons, Nat.add_mul, one_mul] at hs
    rw [List.foldl_cons]
    have hqB : q + L ≤ B := hq q (List.mem_cons_self _ _)
    have hslen : q < s.length := by omega
    rw [if_pos hslen]
    apply ih _ (fun p hp => hq p (List.mem_cons_of_mem _ hp))
    rw [jsSlice_zero_take, jsSliceFrom_natCast]
    simp only [List.length_append, List.length_take, List.length_drop]
    omega

theorem jsSlice_zero_neg (s : Str) (t : Nat) (ht : 1 ≤ t) :
    jsSlice s 0 (-(t : Int)) = s.take (s.length - t) := by
  rw [jsSlice]
  have hneg : (-(t : Int)) < 0 := by omega
  have hb : jsClamp s.length (-(t : Int)) = s.length - t := by
    rw [jsClamp, if_pos hneg]
    omega
  have h0 : jsClamp s.length 0 = 0 := by simp [jsClamp]
  rw [hb, h0, List.drop_zero]

theorem stripChecksum_length (cfg : Config) (x : Str) (B : Nat)
    (hck : cfg.checksum = true) (hlen1 : 1 ≤ cfg.checksumLength)
    (hcnt : 1 ≤ cfg.checksumCount)
    (hlen : x.length = B + cfg.checksumCount * cfg.checksumLength)
    (hexp : ∀ ps, cfg.checksumPosition = .explicit ps →
      ps.length = cfg.checksumCount ∧ ∀ p ∈ ps, p + cfg.checksumLength ≤ B) :
    (stripChecksumStep cfg x).length = B := by
  rw [stripChecksumStep, if_pos hck]
  cases hpos : cfg.checksumPosition with
  | explicit ps =>
    dsimp only
    obtain ⟨hps, hbound⟩ := hexp ps hpos
    have := removeFold_length cfg.checksumLength B hlen1 (sortDesc ps) x
      (fun p hp => hbound p (sortDesc_mem ps p hp))
      (by rw [hlen, sortDesc_length, hps])
    exact this
  | start =>
    dsimp only
    rw [List.length_drop, hlen]
    omega
  | middle =>
    dsimp only
    have hx : ((x.length : Int) - ((cfg.checksumCount * cfg.checksumLength : Nat) : Int))
        = ((B : Nat) : Int) := by rw [hlen]; push_cast; ring
    rw [hx]
    have hfd : Int.fdiv ((B : Nat) : Int) 2 = ((B / 2 : Nat) : Int) := by
      rw [show ((2 : Int)) = ((2 : Nat) : Int) from rfl, ← Int.ofNat_fdiv]
    rw [hfd]
    have hsum : (((B / 2 : Nat) : Int) + ((cfg.checksumCount * cfg.checksumLength : Nat) : Int))
        = (((B / 2 + cfg.checksumCount * cfg.checksumLength : Nat)) : Int) := by push_cast; ring
    rw [hsum, jsSlice_zero_take, jsSliceFrom_natCast]
    simp only [List.length_append, List.length_take, List.length_drop]
    rw [hlen]
    omega
  | atEnd =>
    dsimp only
    have htot : 1 ≤ cfg.checksumCount * cfg.checksumLength := by
      have := Nat.mul_le_mul hcnt hlen1
      omega
    rw [jsSlice_zero_neg x _ htot, List.length_take, hlen]
    omega

end Sig

/- ===================== Lemma layer: payload generation ===================== -/

namespace Sig

theorem coreLen_ge (cfg : Config) : 8 ≤ coreLen cfg := Nat.le_max_left _ _

theorem applyCase_chars (s cs : Str) (ct : CaseType) (hs : ∀ c ∈ s, c ∈ cs) :
    ∀ c ∈ applyCase s ct, c ∈ cs ∨ c ∈ toUpper cs ∨ c ∈ toLower cs := by
  intro c hc
  cases ct with
  | mixed => exact Or.inl (hs c hc)
  | upper =>
    obtain ⟨c0, hc0, hcc⟩ := List.mem_map.mp hc
    exact Or.inr (Or.inl (hcc ▸ List.mem_map.mpr ⟨c0, hs c0 hc0, rfl⟩))
  | lower =>
    obtain ⟨c0, hc0, hcc⟩ := List.mem_map.mp hc
    exact Or.inr (Or.inr (hcc ▸ List.mem_map.mpr ⟨c0, hs c0 hc0, rfl⟩))

theorem generateRandomId_spec {ent : Entropy} {off slot len : Nat} {charset : Str}
    {enhance reseed : Bool} {s : Str}
    (hs : generateRandomId ent off slot len charset enhance reseed = some s) :
    s.length = len ∧
    ((∀ sl j, ent.padIdx sl j < charset.length) → charset ≠ [] → ∀ c ∈ s, c ∈ charset) := by
  rw [generateRandomId] at hs
  obtain ⟨h1, h2⟩ := bufferToBase_eq_some hs
  exact ⟨h1, fun hpad hcs => h2 (fun j => hpad slot j) hcs⟩

theorem generateCore_spec {O : Oracles} {cfg : Config} {ent : Entropy} {charset : Str}
    {L : Nat} {embed s : Str}
    (hs : generateCore O cfg ent charset L embed = some s) (hL : 1 ≤ L) :
    s.length = L ∧
    ((∀ sl j, ent.padIdx sl j < charset.length) → charset ≠ [] → ∀ c ∈ s, c ∈ charset) := by
  rw [generateCore] at hs
  cases hm : cfg.mode with
  | random =>
    rw [hm] at hs
    exact generateRandomId_spec hs
  | hash =>
    rw [hm] at hs
    rw [generateHashId] at hs
    dsimp only at hs
    obtain ⟨h1, h2⟩ := bufferToBase_eq_some hs
    exact ⟨h1, fun hpad hcs => h2 (fun j => hpad 0 j) hcs⟩
  | hmac =>
    rw [hm] at hs
    rw [generateHmacId] at hs
    dsimp only at hs
    obtain ⟨h1, h2⟩ := bufferToBase_eq_some hs
    exact ⟨h1, fun hpad hcs => h2 (fun j => hpad 0 j) hcs⟩
  | hmacHash =>
    rw [hm] at hs
    rw [generateHmacHashId] at hs
    dsimp only at hs
    obtain ⟨h1, h2⟩ := bufferToBase_eq_some hs
    exact ⟨h1, fun hpad hcs => h2 (fun j => hpad 0 j) hcs⟩
  | memoryHard =>
    rw [hm] at hs
    rw [generateMemoryHardId] at hs
    dsimp only at hs
    obtain ⟨h1, h2⟩ := bufferToBase_eq_some hs
    exact ⟨h1, fun hpad hcs => h2 (fun j => hpad 0 j) hcs⟩
  | hybrid =>
    rw [hm] at hs
    rw [generateHybridId] at hs
    dsimp only at hs
    cases hr : generateRandomId ent 0 0 ((L + 1) / 2) charset false false with
    | none => rw [hr] at hs; exact absurd hs (by simp)
    | some rp =>
      rw [hr] at hs
      obtain ⟨hr1, hr2⟩ := generateRandomId_spec hr
      by_cases hsec : cfg.secret = []
      · rw [if_neg (by simpa using hsec)] at hs
        cases hh : generateHashId O ent (0 + 2 * ((L + 1) / 2)) 1 (L - (L + 1) / 2) charset
            cfg.algorithm embed false with
        | none => rw [hh] at hs; exact absurd hs (by simp)
        | some hp =>
          rw [hh] at hs
          rw [generateHashId] at hh
          obtain ⟨hh1, hh2⟩ := bufferToBase_eq_some hh
          have hsv : s = rp ++ hp := by simpa using hs.symm
          subst hsv
          constructor
          · rw [List.length_append, hr1, hh1]; omega
          · intro hpad hcs c hc
            rcases List.mem_append.mp hc with h | h
            · exact hr2 hpad hcs c h
            · exact hh2 (fun j => hpad 1 j) hcs c h
      · rw [if_pos (by simpa using hsec)] at hs
        cases hh : generateHmacId O ent (0 + 2 * ((L + 1) / 2)) 1 (L - (L + 1) / 2) charset
            cfg.secret cfg.salt cfg.pepper cfg.algorithm embed with
        | none => rw [hh] at hs; exact absurd hs (by simp)
        | some hp =>
          rw [hh] at hs
          rw [generateHmacId] at hh
          obtain ⟨hh1, hh2⟩ := bufferToBase_eq_some hh
          have hsv : s = rp ++ hp := by simpa using hs.symm
          subst hsv
          constructor
          · rw [List.length_append, hr1, hh1]; omega
          · intro hpad hcs c hc
            rcases List.mem_append.mp hc with h | h
            · exact hr2 hpad hcs c h
            · exact hh2 (fun j => hpad 1 j) hcs c h

end Sig

/- ===================== Lemma layer: pipeline assembly ===================== -/

namespace Sig

theorem mem_contentChars_of_charset {cfg : Config} {c : Char} (h : c ∈ charsetOf cfg) :
    c ∈ contentChars cfg := by
  rw [contentChars]
  exact List.mem_append.mpr (Or.inl (List.mem_append.mpr (Or.inl
    (List.mem_append.mpr (Or.inl h)))))

theorem mem_contentChars_of_upper {cfg : Config} {c : Char} (h : c ∈ toUpper (charsetOf cfg)) :
    c ∈ contentChars cfg := by
  rw [contentChars]
  exact List.mem_append.mpr (Or.inl (List.mem_append.mpr (Or.inl
    (List.mem_append.mpr (Or.inr h)))))

theorem mem_contentChars_of_lower {cfg : Config} {c : Char} (h : c ∈ toLower (charsetOf cfg)) :
    c ∈ contentChars cfg := by
  rw [contentChars]
  exact List.mem_append.mpr (Or.inl (List.mem_append.mpr (Or.inr h)))

theorem mem_contentChars_of_hex {cfg : Config} {c : Char} (h : c ∈ hexUpperChars) :
    c ∈ contentChars cfg := by
  rw [contentChars]
  exact List.mem_append.mpr (Or.inr h)

theorem stripChecksum_of_no_checksum (cfg : Config) (x : Str) (h : ¬ cfg.checksum = true) :
    stripChecksumStep cfg x = x := by
  rw [stripChecksumStep, if_neg h]

theorem exceptMap_eq_ok {α β ε : Type} (e : Except ε α) (f : α → β) (y : β) :
    e.map f = .ok y ↔ ∃ x, e = .ok x ∧ y = f x := by
  cases e <;> simp [Except.map]
  exact eq_comm

theorem checksumTotal_of_true {cfg : Config} (h : cfg.checksum = true) :
    checksumTotalLen cfg = cfg.checksumCount * cfg.checksumLength := by
  rw [checksumTotalLen, if_pos h]

theorem checksumTotal_of_false {cfg : Config} (h : ¬ cfg.checksum = true) :
    checksumTotalLen cfg = 0 := by
  rw [checksumTotalLen, if_neg h]

theorem withChecksums_good (O : Oracles) (cfg : Config) (idCore : Str)
    (hWF : WFOracles O)
    (hlen64 : cfg.checksum = true → cfg.checksumLength ≤ 64)
    (hexp : cfg.checksum = true → ∀ ps, cfg.checksumPosition = .explicit ps →
      cfg.checksumCount ≤ ps.length)
    (hL : idCore.length = coreLen cfg)
    (hchars : ∀ c ∈ idCore, c ∈ contentChars cfg) :
    (if cfg.checksum then
        addChecksums O idCore cfg.checksumCount cfg.checksumLength cfg.checksumPosition
          cfg.algorithm cfg.secret
      else idCore).length = coreLen cfg + checksumTotalLen cfg ∧
    ∀ c ∈ (if cfg.checksum then
        addChecksums O idCore cfg.checksumCount cfg.checksumLength cfg.checksumPosition
          cfg.algorithm cfg.secret
      else idCore), c ∈ contentChars cfg := by
  by_cases hck : cfg.checksum = true
  · rw [if_pos hck]
    constructor
    · rw [addChecksums_length O idCore _ _ _ _ _ hWF (hlen64 hck) (hexp hck),
        checksumTotal_of_true hck, hL]
    · intro c hc
      rcases addChecksums_chars O idCore _ _ _ _ _ hWF c hc with h | h
      · exact hchars c h
      · exact mem_contentChars_of_hex h
  · rw [if_neg hck]
    rw [checksumTotal_of_false hck]
    exact ⟨by omega, hchars⟩

end Sig

namespace Sig

theorem collisionLoop_ok (O : Oracles) (cfg : Config) (ent : Entropy) (L : Nat)
    (hWF : WFOracles O)
    (hlen64 : cfg.checksum = true → cfg.checksumLength ≤ 64)
    (hexp : cfg.checksum = true → ∀ ps, cfg.checksumPosition = .explicit ps →
      cfg.checksumCount ≤ ps.length)
    (hpad : ∀ sl j, ent.padIdx sl j < (charsetOf cfg).length)
    (hcs : charsetOf cfg ≠ []) (hLe : L = coreLen cfg) :
    ∀ (n : Nat) (x y : Str), collisionLoop O cfg ent (charsetOf cfg) L n x = .ok y →
      (x.length = coreLen cfg + checksumTotalLen cfg ∧ ∀ c ∈ x, c ∈ contentChars cfg) →
      y.length = coreLen cfg + checksumTotalLen cfg ∧ ∀ c ∈ y, c ∈ contentChars cfg := by
  intro n
  induction n with
  | zero =>
    intro x y h
    rw [collisionLoop] at h
    exact absurd h (by simp)
  | succ m ih =>
    intro x y h hx
    rw [collisionLoop] at h
    by_cases hcoll : ent.collision x = true
    · rw [if_pos hcoll] at h
      dsimp only at h
      cases hg : generateRandomId ent (retryOff L (10 - (m + 1))) (2 + (10 - (m + 1))) L
          (charsetOf cfg) cfg.security.enhanceEntropy cfg.security.reseed with
      | none => rw [hg] at h; exact absurd h (by simp)
      | some idCore =>
        rw [hg] at h
        dsimp only at h
        obtain ⟨hg1, hg2⟩ := generateRandomId_spec hg
        apply ih _ _ h
        have hchars : ∀ c ∈ idCore, c ∈ contentChars cfg := by
          intro c hc
          exact mem_contentChars_of_charset (hg2 hpad hcs c hc)
        exact withChecksums_good O cfg idCore hWF hlen64 hexp (hLe ▸ hg1) hchars
    · rw [if_neg hcoll] at h
      have : x = y := by simpa using h
      exact this ▸ hx

theorem extractCore_length_of_ok (O : Oracles) (cfg : Config) (ent : Entropy) (id : Str)
    (hWF : WFOracles O) (hV : ValidConfig cfg) (hE : ValidEntropy cfg ent)
    (hcnt : cfg.checksum = true → 1 ≤ cfg.checksumCount)
    (hok : generateId O cfg ent = .ok id) :
    (extractCoreId cfg id).length = coreLen cfg := by
  obtain ⟨hcs, hsteg, hsepc, hckc⟩ := hV
  obtain ⟨hbytes, hpad⟩ := hE
  rw [generateId] at hok
  dsimp only at hok
  by_cases h1 : cfg.security.rateLimit = true ∧ ¬ ent.rateLimitOk = true
  · rw [if_pos h1] at hok; exact absurd hok (by simp)
  rw [if_neg h1] at hok
  by_cases h2 : (cfg.mode = .hmac ∨ cfg.mode = .hmacHash ∨ cfg.mode = .memoryHard) ∧
      cfg.secret = []
  · rw [if_pos h2] at hok; exact absurd hok (by simp)
  rw [if_neg h2] at hok
  by_cases h3 : cfg.security.embedExpiry = true ∧ ¬ ttlTruthy cfg.security.ttl = true
  · rw [if_pos h3] at hok; exact absurd hok (by simp)
  rw [if_neg h3] at hok
  by_cases h4 : cfg.security.deviceBinding = true ∧ cfg.security.deviceId = []
  · rw [if_pos h4] at hok; exact absurd hok (by simp)
  rw [if_neg h4] at hok
  cases hg : generateCore O cfg ent
      (getCharset cfg.security.avoidAmbiguousChars cfg.security.enforceCharset) (coreLen cfg)
      (embedDataStr O ent cfg.security) with
  | none => rw [hg] at hok; exact absurd hok (by simp)
  | some idCore0 =>
    rw [hg] at hok
    dsimp only at hok
    have hgc : generateCore O cfg ent (charsetOf cfg) (coreLen cfg)
        (embedDataStr O ent cfg.security) = some idCore0 := hg
    obtain ⟨hg1, hg2⟩ := generateCore_spec hgc (by have := coreLen_ge cfg; omega)
    have hcore_chars : ∀ c ∈ applyCase idCore0 cfg.caseType, c ∈ contentChars cfg := by
      intro c hc
      rcases applyCase_chars idCore0 (charsetOf cfg) cfg.caseType (hg2 hpad hcs) c hc with
        h | h | h
      · exact mem_contentChars_of_charset h
      · exact mem_contentChars_of_upper h
      · exact mem_contentChars_of_lower h
    have hcore_len : (applyCase idCore0 cfg.caseType).length = coreLen cfg := by
      rw [applyCase_length, hg1]
    have hexp' : cfg.checksum = true → ∀ ps, cfg.checksumPosition = .explicit ps →
        cfg.checksumCount ≤ ps.length := by
      intro hck ps hps
      exact le_of_eq ((hckc hck).2.2 ps hps).1.symm
    have hlen64 : cfg.checksum = true → cfg.checksumLength ≤ 64 := fun hck => (hckc hck).2.1
    obtain ⟨hwck_len, hwck_chars⟩ :=
      withChecksums_good O cfg (applyCase idCore0 cfg.caseType) hWF hlen64 hexp'
        hcore_len hcore_chars
    rw [exceptMap_eq_ok] at hok
    obtain ⟨afterColl, hloop, hid⟩ := hok
    have hgood : afterColl.length = coreLen cfg + checksumTotalLen cfg ∧
        ∀ c ∈ afterColl, c ∈ contentChars cfg := by
      by_cases hcd : cfg.security.collisionDetection = true
      · rw [if_pos hcd] at hloop
        exact collisionLoop_ok O cfg ent (coreLen cfg) hWF hlen64 hexp' hpad hcs rfl
          10 _ afterColl hloop ⟨hwck_len, hwck_chars⟩
      · rw [if_neg hcd] at hloop
        have heq := Except.ok.inj hloop
        exact heq ▸ ⟨hwck_len, hwck_chars⟩
    obtain ⟨hacl, hacc⟩ := hgood
    have hanil : afterColl ≠ [] := by
      intro hnil
      rw [hnil] at hacl
      simp at hacl
      have := coreLen_ge cfg
      omega
    have hdisj : ∀ c ∈ afterColl, c ∉ cfg.separator := by
      intro c hc hmem
      by_cases hsep : cfg.separator = []
      · rw [hsep] at hmem; simp at hmem
      · exact ((hsepc hsep).2 c hmem) (hacc c hc)
    rw [hid, extractCoreId_formatted cfg afterColl hsteg (fun hsep => (hsepc hsep).1)
      hdisj hanil]
    by_cases hck : cfg.checksum = true
    · refine stripChecksum_length cfg afterColl (coreLen cfg) hck (hckc hck).1 (hcnt hck) ?_ ?_
      · rw [hacl, checksumTotal_of_true hck]
      · intro ps hps
        refine ⟨((hckc hck).2.2 ps hps).1, ((hckc hck).2.2 ps hps).2⟩
    · rw [stripChecksum_of_no_checksum cfg afterColl hck, hacl,
        checksumTotal_of_false hck]
      omega

end Sig

/- ===================== Lemma layer: concrete oracles ===================== -/

namespace Sig

theorem be4_bytes (w : Nat) : ∀ b ∈ be4 w, b < 256 := by
  intro b hb
  simp only [be4, List.mem_cons, List.not_mem_nil, or_false] at hb
  rcases hb with h | h | h | h <;> subst h <;> exact Nat.mod_lt _ (by omega)

theorem sha256_length (msg : List Nat) : (sha256 msg).length = 32 := by
  rw [sha256]
  simp [be4]

theorem sha256_bytes (msg : List Nat) : ∀ b ∈ sha256 msg, b < 256 := by
  intro b hb
  rw [sha256] at hb
  simp only [List.mem_append] at hb
  rcases hb with ((((((h | h) | h) | h) | h) | h) | h) | h <;> exact be4_bytes _ b h

theorem stretchTo_length (n : Nat) (seed : List Nat) (hn : n ≤ 64) :
    (stretchTo n seed).length = n := by
  rw [stretchTo, List.length_take, List.length_append, sha256_length, sha256_length]
  omega

theorem stretchTo_bytes (n : Nat) (seed : List Nat) : ∀ b ∈ stretchTo n seed, b < 256 := by
  intro b hb
  have hb' := List.mem_of_mem_take hb
  rcases List.mem_append.mp hb' with h | h
  · exact sha256_bytes _ b h
  · exact sha256_bytes _ b h

theorem realOracles_wf : WFOracles realOracles := by
  refine ⟨?_, ?_, ?_, ?_⟩
  · intro alg d
    cases alg with
    | sha256 =>
      show (sha256 d).length = 32 ∧ ∀ b ∈ sha256 d, b < 256
      exact ⟨sha256_length d, sha256_bytes d⟩
    | sha512 =>
      show (stretchTo 64 d).length = 64 ∧ ∀ b ∈ stretchTo 64 d, b < 256
      exact ⟨stretchTo_length _ _ (by omega), stretchTo_bytes _ _⟩
    | sha3_256 =>
      show (stretchTo 32 d).length = 32 ∧ ∀ b ∈ stretchTo 32 d, b < 256
      exact ⟨stretchTo_length _ _ (by omega), stretchTo_bytes _ _⟩
    | sha3_512 =>
      show (stretchTo 64 d).length = 64 ∧ ∀ b ∈ stretchTo 64 d, b < 256
      exact ⟨stretchTo_length _ _ (by omega), stretchTo_bytes _ _⟩
    | blake2b512 =>
      show (stretchTo 64 d).length = 64 ∧ ∀ b ∈ stretchTo 64 d, b < 256
      exact ⟨stretchTo_length _ _ (by omega), stretchTo_bytes _ _⟩
    | shake256 =>
      show (stretchTo 64 d).length = 64 ∧ ∀ b ∈ stretchTo 64 d, b < 256
      exact ⟨stretchTo_length _ _ (by omega), stretchTo_bytes _ _⟩
  · intro alg k d
    show (stretchTo (hmacLen alg) (strBytes k ++ 1 :: d)).length = hmacLen alg ∧
      ∀ b ∈ stretchTo (hmacLen alg) (strBytes k ++ 1 :: d), b < 256
    exact ⟨stretchTo_length _ _ (hmacLen_le _), stretchTo_bytes _ _⟩
  · intro s sa p alg
    show (stretchTo 32 _).length = 32 ∧ ∀ b ∈ stretchTo 32 _, b < 256
    exact ⟨stretchTo_length _ _ (by omega), stretchTo_bytes _ _⟩
  · intro i s n
    show (stretchTo 64 _).length = 64 ∧ ∀ b ∈ stretchTo 64 _, b < 256
    exact ⟨stretchTo_length _ _ (by omega), stretchTo_bytes _ _⟩

theorem takeBytes_length (ent : Entropy) (off n : Nat) : (takeBytes ent off n).length = n := by
  simp [takeBytes]

theorem takeBytes_ne_nil (ent : Entropy) (off n : Nat) (hn : 1 ≤ n) :
    takeBytes ent off n ≠ [] := by
  intro h
  have := takeBytes_length ent off n
  rw [h] at this
  simp at this
  omega

theorem generateRandomId_some (ent : Entropy) (off slot len : Nat) (charset : Str)
    (hL : 1 ≤ len) :
    ∃ s, generateRandomId ent off slot len charset false false = some s := by
  rw [generateRandomId]
  simp only [Bool.false_eq_true, if_false]
  exact bufferToBase_isSome charset len (ent.padIdx slot)
    (takeBytes_ne_nil ent off (2 * len) (by omega))

theorem generateId_ok_form (O : Oracles) (cfg : Config) (ent : Entropy) {s : Str}
    (h1 : ¬ (cfg.security.rateLimit = true ∧ ¬ ent.rateLimitOk = true))
    (h2 : ¬ ((cfg.mode = .hmac ∨ cfg.mode = .hmacHash ∨ cfg.mode = .memoryHard) ∧
      cfg.secret = []))
    (h3 : ¬ (cfg.security.embedExpiry = true ∧ ¬ ttlTruthy cfg.security.ttl = true))
    (h4 : ¬ (cfg.security.deviceBinding = true ∧ cfg.security.deviceId = []))
    (hcd : ¬ cfg.security.collisionDetection = true)
    (hcore : generateCore O cfg ent
      (getCharset cfg.security.avoidAmbiguousChars cfg.security.enforceCharset) (coreLen cfg)
      (embedDataStr O ent cfg.security) = some s) :
    generateId O cfg ent = .ok (formatId cfg
      (if cfg.checksum then
        addChecksums O (applyCase s cfg.caseType) cfg.checksumCount cfg.checksumLength
          cfg.checksumPosition cfg.algorithm cfg.secret
      else applyCase s cfg.caseType)) := by
  simp only [generateId, hcore, if_neg h1, if_neg h2, if_neg h3, if_neg h4, if_neg hcd,
    Except.map]

end Sig

namespace Sig

/-- Claim C5 (amended): for every well-formed oracle record, every valid
configuration whose checksum block count is at least 1 when checksums are
enabled, and every identifier a generation run actually returns,
`extractCoreId` recovers a core whose length is exactly
`max(8, requestedLength − metadataLength − checksumLength)` — the metadata
fragment widths plus the checksum width subtracted from the requested length,
floored at 8.  The block-count proviso is the correction: with checksums
enabled and a zero block count the end-position strip computes
`slice(0, -0)` = `slice(0, 0)` and the whole core is lost (see the
counterexample theorem). -/
theorem C5_extract_core_length (O : Oracles) (cfg : Config) (ent : Entropy) (id : Str)
    (hWF : WFOracles O) (hV : ValidConfig cfg) (hE : ValidEntropy cfg ent)
    (hcnt : cfg.checksum = true → 1 ≤ cfg.checksumCount)
    (hok : generateId O cfg ent = .ok id) :
    (extractCoreId cfg id).length =
      max 8 (cfg.length - (metaFragmentsLen cfg + checksumTotalLen cfg)) := by
  rw [extractCore_length_of_ok O cfg ent id hWF hV hE hcnt hok, coreLen, Nat.add_comm]

theorem cfgC5W_valid : ValidConfig cfgC5W := by
  refine ⟨by decide, rfl, ?_, ?_⟩
  · intro _
    exact ⟨by decide, by decide⟩
  · intro _
    refine ⟨by decide, by decide, ?_⟩
    intro ps h
    simp [cfgC5W] at h

theorem entZero_validC5 : ValidEntropy cfgC5W entZero := by
  constructor
  · intro i; simp [entZero]
  · intro s j; simp [entZero]; decide

set_option maxRecDepth 10000 in
/-- Witness for C5: the feature-rich valid configuration `cfgC5W`
(middle-position checksums, separator, prefix, suffix) on the all-zero
entropy draw: the extracted core has the claimed length 16. -/
theorem C5_extract_core_length_witness :
    (generateId realOracles cfgC5W entZero).toOption.map
        (fun id => (extractCoreId cfgC5W id).length) =
      some (max 8 (cfgC5W.length - (metaFragmentsLen cfgC5W + checksumTotalLen cfgC5W))) := by
  cases hg : generateId realOracles cfgC5W entZero with
  | error e =>
    have hok : (generateId realOracles cfgC5W entZero).isOk = true := by decide
    rw [hg] at hok
    simp [Except.isOk, Except.toBool] at hok
  | ok id =>
    simp only [Except.toOption, Option.map_some']
    rw [C5_extract_core_length realOracles cfgC5W entZero id realOracles_wf cfgC5W_valid
      entZero_validC5 (fun _ => by decide) hg]

theorem cfgC5X_valid : ValidConfig cfgC5X := by
  refine ⟨by decide, rfl, ?_, ?_⟩
  · intro h
    simp [cfgC5X] at h
  · intro _
    refine ⟨by decide, by decide, ?_⟩
    intro ps h
    simp [cfgC5X] at h

set_option maxRecDepth 10000 in
/-- Claim C5, counterexample to the original statement: the configuration
`cfgC5X` (checksums enabled, block count 0) is valid and the all-zero
entropy draw satisfies the entropy well-formedness, generation succeeds,
yet the extracted core has length 0 — not the claimed
`max(8, requestedLength − metadataLength − checksumLength)`, which is 20:
end-position extraction computes `slice(0, -0)` = the empty string. -/
theorem C5_zero_count_core_lost :
    ValidConfig cfgC5X ∧ ValidEntropy cfgC5X entZero ∧
    (generateId realOracles cfgC5X entZero).toOption.map
        (fun id => (extractCoreId cfgC5X id).length) = some 0 ∧
    max 8 (cfgC5X.length - (metaFragmentsLen cfgC5X + checksumTotalLen cfgC5X)) = 20 := by
  refine ⟨cfgC5X_valid, ⟨fun i => by simp [entZero], fun s j => by simp [entZero]; decide⟩,
    by decide, by decide⟩

end Sig

namespace Sig

/-- Claim C6 (confirmed): with length 20 and two 2-character checksums (and
no prefix, suffix, separator, or metadata), every generation run returns an
identifier of exactly 20 characters — the checksum characters are counted
inside the requested total length. -/
theorem C6_twenty_char_identifier (ent : Entropy) :
    ∃ id, generateId realOracles cfgC6 ent = .ok id ∧ id.length = 20 := by
  obtain ⟨s, hs⟩ := generateRandomId_some ent 0 0 (coreLen cfgC6) (charsetOf cfgC6)
    (by decide)
  have hcore : generateCore realOracles cfgC6 ent
      (getCharset cfgC6.security.avoidAmbiguousChars cfgC6.security.enforceCharset)
      (coreLen cfgC6) (embedDataStr realOracles ent cfgC6.security) = some s := hs
  obtain ⟨hs1, _⟩ := generateRandomId_spec hs
  have hok := generateId_ok_form realOracles cfgC6 ent (by simp [cfgC6]) (by simp [cfgC6])
    (by simp [cfgC6]) (by simp [cfgC6]) (by simp [cfgC6]) hcore
  refine ⟨_, hok, ?_⟩
  have hfmt : ∀ x : Str, formatId cfgC6 x = x := by
    intro x
    simp [formatId, cfgC6]
  rw [hfmt]
  rw [if_pos (show cfgC6.checksum = true from rfl)]
  rw [addChecksums_length realOracles _ _ _ _ _ _ realOracles_wf (by decide) ?_]
  · rw [applyCase_length, hs1]
    decide
  · intro ps h
    simp [cfgC6] at h

end Sig

namespace Sig

theorem collisionLoop_error (O : Oracles) (cfg : Config) (ent : Entropy) (cs : Str) (L : Nat) :
    ∀ (n : Nat) (x : Str) (e : GenErr), collisionLoop O cfg ent cs L n x = .error e →
      e = .collisionExhausted ∨ e = .encodingFailure := by
  intro n
  induction n with
  | zero =>
    intro x e h
    rw [collisionLoop] at h
    exact Or.inl (Except.error.inj h).symm
  | succ m ih =>
    intro x e h
    rw [collisionLoop] at h
    by_cases hcoll : ent.collision x = true
    · rw [if_pos hcoll] at h
      dsimp only at h
      cases hg : generateRandomId ent (retryOff L (10 - (m + 1))) (2 + (10 - (m + 1))) L cs
          cfg.security.enhanceEntropy cfg.security.reseed with
      | none => rw [hg] at h; exact Or.inr (Except.error.inj h).symm
      | some idCore => rw [hg] at h; exact ih _ e h
    · rw [if_neg hcoll] at h
      exact absurd h (by simp)

theorem exceptMap_eq_error {α β ε : Type} (e : Except ε α) (f : α → β) (err : ε) :
    e.map f = .error err ↔ e = .error err := by
  cases e <;> simp [Except.map]

/-- Claim C7 (confirmed): in the `hmac`, `hmac-hash` and `memory-hard` modes
an empty secret makes generation fail with the secret-required configuration
error for every entropy stream — i.e. before any random draw, hashing, HMAC
or key-derivation result can influence the outcome — while with a non-empty
secret this error can never be produced. -/
theorem C7_secret_required (O : Oracles) (cfg : Config)
    (hm : cfg.mode = .hmac ∨ cfg.mode = .hmacHash ∨ cfg.mode = .memoryHard)
    (hrl : cfg.security.rateLimit = false) :
    (cfg.secret = [] → ∀ ent : Entropy,
      generateId O cfg ent = .error (.secretRequired cfg.mode)) ∧
    (cfg.secret ≠ [] → ∀ (ent : Entropy) (m : Mode),
      generateId O cfg ent ≠ .error (.secretRequired m)) := by
  constructor
  · intro hsec ent
    rw [generateId]
    rw [if_neg (by simp [hrl])]
    rw [if_pos ⟨hm, hsec⟩]
  · intro hsec ent m hEq
    rw [generateId] at hEq
    dsimp only at hEq
    rw [if_neg (by simp [hrl])] at hEq
    rw [if_neg (fun h => hsec h.2)] at hEq
    by_cases h3 : cfg.security.embedExpiry = true ∧ ¬ ttlTruthy cfg.security.ttl = true
    · rw [if_pos h3] at hEq
      exact absurd (Except.error.inj hEq) (by simp)
    rw [if_neg h3] at hEq
    by_cases h4 : cfg.security.deviceBinding = true ∧ cfg.security.deviceId = []
    · rw [if_pos h4] at hEq
      exact absurd (Except.error.inj hEq) (by simp)
    rw [if_neg h4] at hEq
    cases hg : generateCore O cfg ent
        (getCharset cfg.security.avoidAmbiguousChars cfg.security.enforceCharset) (coreLen cfg)
        (embedDataStr O ent cfg.security) with
    | none =>
      rw [hg] at hEq
      exact absurd (Except.error.inj hEq) (by simp)
    | some idCore0 =>
      rw [hg] at hEq
      dsimp only at hEq
      rw [exceptMap_eq_error] at hEq
      by_cases hcd : cfg.security.collisionDetection = true
      · rw [if_pos hcd] at hEq
        rcases collisionLoop_error O cfg ent _ _ 10 _ _ hEq with h | h <;> simp at h
      · rw [if_neg hcd] at hEq
        exact absurd hEq (by simp)

/-- Witness for C7: mode `hmac` with the default (empty) secret fails with
the secret-required error on the all-zero entropy stream, and with secret
"k" that error is impossible. -/
theorem C7_secret_required_witness :
    generateId realOracles { mode := Mode.hmac } entZero =
        .error (.secretRequired Mode.hmac) ∧
    generateId realOracles { mode := Mode.hmac, secret := str "k" } entZero ≠
        .error (.secretRequired Mode.hmac) :=
  ⟨(C7_secret_required realOracles { mode := Mode.hmac } (Or.inl rfl) rfl).1 rfl entZero,
   (C7_secret_required realOracles { mode := Mode.hmac, secret := str "k" } (Or.inl rfl)
      rfl).2 (by simp [str]) entZero Mode.hmac⟩

end Sig

namespace Sig

theorem isOk_iff {ε α : Type} (e : Except ε α) : e.isOk = true ↔ ∃ b, e = .ok b := by
  cases e <;> simp [Except.isOk, Except.toBool]

theorem verifyHmacE_isOk (O : Oracles) (cfg : Config) (id secret : Str) (hsec : secret ≠ []) :
    (verifyHmacE O cfg id secret).isOk = true := by
  rw [verifyHmacE, if_neg hsec]
  rfl

theorem verifySingleMethod_isOk (O : Oracles) (now : Nat) (cfg : Config) (id : Str)
    (m : VMethod) : (verifySingleMethod O now cfg id m).isOk = true := by
  cases m with
  | checksum => rfl
  | hmac =>
    rw [verifySingleMethod]
    by_cases h : cfg.secret ≠ []
    · rw [if_pos h]
      exact verifyHmacE_isOk O cfg id cfg.secret h
    · rw [if_neg h]
      rfl
  | timestamp => rfl
  | signature => rfl
  | expiry =>
    rw [verifySingleMethod]
    split
    · split <;> rfl
    · rfl
  | device =>
    rw [verifySingleMethod]
    split
    · split <;> rfl
    · rfl
  | geo =>
    rw [verifySingleMethod]
    split
    · split <;> rfl
    · rfl

theorem runMethods_isOk (O : Oracles) (now : Nat) (cfg : Config) (id : Str) :
    ∀ ms : List VMethod, (runMethods O now cfg id ms).isOk = true := by
  intro ms
  induction ms with
  | nil => rfl
  | cons m ms ih =>
    rw [runMethods]
    obtain ⟨b, hb⟩ := (isOk_iff _).mp (verifySingleMethod_isOk O now cfg id m)
    rw [hb]
    show ((Except.ok b).bind fun b => if b = true then runMethods O now cfg id ms
      else Except.ok false).isOk = true
    rw [Except.bind]
    by_cases h : b = true
    · rw [if_pos h]; exact ih
    · rw [if_neg h]; rfl

theorem verifyIdE_isOk (O : Oracles) (rev : Str → Bool) (now : Nat) (cfg : Config) (id : Str) :
    (verifyIdE O rev now cfg id).isOk = true := by
  rw [verifyIdE]
  by_cases h1 : cfg.security.checkRevocation = true ∧ rev id = true
  · rw [if_pos h1]; rfl
  rw [if_neg h1]
  by_cases h2 : cfg.security.verifyMultiFactor ≠ []
  · rw [if_pos h2]
    exact runMethods_isOk O now cfg id _
  rw [if_neg h2]
  by_cases h3 : cfg.checksum = true ∧ ¬ verifyChecksum O cfg id = true
  · rw [if_pos h3]; rfl
  rw [if_neg h3]
  have hhead : (if cfg.secret ≠ [] ∧ (cfg.mode = .hmac ∨ cfg.mode = .hmacHash) then
      verifyHmacE O cfg id cfg.secret else .ok true).isOk = true := by
    by_cases h4 : cfg.secret ≠ [] ∧ (cfg.mode = .hmac ∨ cfg.mode = .hmacHash)
    · rw [if_pos h4]
      exact verifyHmacE_isOk O cfg id cfg.secret h4.1
    · rw [if_neg h4]; rfl
  obtain ⟨b, hb⟩ := (isOk_iff _).mp hhead
  rw [hb, Except.bind]
  by_cases h5 : ¬ b = true
  · rw [if_pos h5]; rfl
  rw [if_neg h5]
  split
  · rfl
  split
  · rfl
  split <;> rfl

/-- Claim C4 (corrected): `verifyChecksum` and the body of `verifyId` are
total — no input makes them raise — and `verifyHmac` is exception-free
whenever a non-empty secret is supplied; with an empty secret it throws (see
the counterexample theorem), so the claim's "including an empty or absent
secret" fails. -/
theorem C4_verification_total (O : Oracles) (rev : Str → Bool) (now : Nat)
    (cfg : Config) (id secret : Str) (hsec : secret ≠ []) :
    (verifyHmacE O cfg id secret).isOk = true ∧
    (verifyIdE O rev now cfg id).isOk = true ∧
    ((verifyChecksum O cfg id = true) ∨ (verifyChecksum O cfg id = false)) :=
  ⟨verifyHmacE_isOk O cfg id secret hsec,
   verifyIdE_isOk O rev now cfg id,
   Bool.eq_false_or_eq_true (verifyChecksum O cfg id)⟩

end Sig

namespace Sig

/-- Witness for C4: with the non-empty secret "k", HMAC verification on an
arbitrary malformed input returns without raising, as do `verifyId` and
`verifyChecksum`. -/
theorem C4_verification_total_witness :
    (verifyHmacE realOracles {} (str "@@bad##") (str "k")).isOk = true ∧
    (verifyIdE realOracles (fun _ => false) 0 {} (str "@@bad##")).isOk = true ∧
    ((verifyChecksum realOracles {} (str "@@bad##") = true) ∨
     (verifyChecksum realOracles {} (str "@@bad##") = false)) :=
  C4_verification_total realOracles (fun _ => false) 0 {} (str "@@bad##") (str "k")
    (by simp [str])

/-- Claim C9 (confirmed): `verifyChecksum` accepts every string when the
checksum feature is off, and `verifyId` with an empty options record accepts
every string whatsoever — verification is vacuously true when nothing is
configured. -/
theorem C9_vacuous_verification :
    (∀ (O : Oracles) (cfg : Config) (id : Str), cfg.checksum = false →
      verifyChecksum O cfg id = true) ∧
    (∀ (O : Oracles) (rev : Str → Bool) (now : Nat) (id : Str),
      verifyId O rev now {} id = true) := by
  constructor
  · intro O cfg id h
    rw [verifyChecksum, if_pos h]
  · intro O rev now id
    rw [verifyId, verifyIdE]
    rw [if_neg (by simp)]
    rw [if_neg (by simp)]
    rw [if_neg (by simp [verifyChecksum])]
    rw [if_neg (by simp)]
    rfl

/-- Witness for C9: a malformed string passes `verifyChecksum` with checksums
off and passes `verifyId` under the empty options record. -/
theorem C9_vacuous_verification_witness :
    verifyChecksum realOracles { length := 12 } (str "!!nonsense!!") = true ∧
    verifyId realOracles (fun _ => false) 7 {} (str "!!nonsense!!") = true :=
  ⟨C9_vacuous_verification.1 realOracles { length := 12 } (str "!!nonsense!!") rfl,
   C9_vacuous_verification.2 realOracles (fun _ => false) 7 (str "!!nonsense!!")⟩

end Sig


namespace Sig

theorem jsClamp_le_length (len : Nat) (i : Int) : jsClamp len i ≤ len := by
  rw [jsClamp]
  by_cases h : i < 0
  · rw [if_pos h]; omega
  · rw [if_neg h]; omega

theorem jsSlice_len_le (s : Str) (a b : Int) : (jsSlice s a b).length ≤ s.length := by
  simp only [jsSlice, List.length_drop, List.length_take]
  have := jsClamp_le_length s.length b
  omega

theorem jsClamp_le_of (len : Nat) (a b : Int) (hab : a ≤ b)
    (hneg : a < 0 → (len : Int) + a ≤ b) : jsClamp len a ≤ jsClamp len b := by
  rw [jsClamp, jsClamp]
  by_cases h1 : a < 0 <;> by_cases h2 : b < 0
  · rw [if_pos h1, if_pos h2]; omega
  · rw [if_pos h1, if_neg h2]
    have := hneg h1
    omega
  · omega
  · rw [if_neg h1, if_neg h2]; omega

theorem jsSlice_pair_le (s : Str) (mid total : Int) (htot : 0 ≤ total)
    (hneg : mid < 0 → (s.length : Int) + mid ≤ mid + total) :
    (jsSlice s 0 mid ++ jsSliceFrom s (mid + total)).length ≤ s.length := by
  simp only [jsSliceFrom, jsSlice]
  have h0 : jsClamp s.length 0 = 0 := by simp [jsClamp]
  have hlen : jsClamp s.length (s.length : Int) = s.length := by simp [jsClamp]
  rw [h0, hlen, List.take_length]
  have hm := jsClamp_le_of s.length mid (mid + total) (by omega) hneg
  have hl1 := jsClamp_le_length s.length mid
  have hl2 := jsClamp_le_length s.length (mid + total)
  simp only [List.length_append, List.length_drop, List.length_take]
  omega

theorem stripPfxStep_le (cfg : Config) (id : Str) : (stripPfxStep cfg id).length ≤ id.length := by
  simp only [stripPfxStep]
  split_ifs <;> first
    | exact le_refl _
    | (simp only [List.length_drop]; omega)

theorem stripSuffixStep_le (cfg : Config) (id : Str) :
    (stripSuffixStep cfg id).length ≤ id.length := by
  simp only [stripSuffixStep]
  split_ifs <;> first
    | exact le_refl _
    | (simp only [List.length_take]; omega)

theorem splitGo_flatten_le (sep : Str) :
    ∀ (fuel : Nat) (rest cur : Str),
      ((splitGo sep fuel rest cur).flatten).length ≤ cur.length + rest.length := by
  intro fuel
  induction fuel with
  | zero => intro rest cur; simp [splitGo]
  | succ n ih =>
    intro rest cur
    rw [splitGo.eq_def]
    dsimp only
    by_cases hp : sep.isPrefixOf rest = true
    · rw [if_pos hp]
      rw [List.flatten_cons]
      have := ih (rest.drop sep.length) []
      simp only [List.length_append, List.length_reverse, List.length_nil, List.length_drop]
        at this ⊢
      omega
    · rw [if_neg hp]
      cases rest with
      | nil => simp
      | cons c rs =>
        have := ih rs (c :: cur)
        simp only [List.length_cons] at this ⊢
        omega

theorem stripSepStep_le (cfg : Config) (id : Str) : (stripSepStep cfg id).length ≤ id.length := by
  rw [stripSepStep]
  split
  · rw [jsSplit]
    rename_i hsep
    rw [if_neg hsep]
    have := splitGo_flatten_le cfg.separator (id.length + 1) id []
    simpa using this
  · exact le_refl _

theorem removeFold_le (L : Nat) :
    ∀ (qs : List Nat) (s : Str),
      ((qs.foldl (fun r pos =>
        if pos < r.length then
          jsSlice r 0 ((pos : Nat) : Int) ++ jsSliceFrom r ((pos + L : Nat) : Int)
        else r) s).length) ≤ s.length := by
  intro qs
  induction qs with
  | nil => intro s; exact le_refl _
  | cons q qs ih =>
    intro s
    rw [List.foldl_cons]
    refine le_trans (ih _) ?_
    by_cases h : q < s.length
    · rw [if_pos h]
      rw [jsSlice_zero_take, jsSliceFrom_natCast]
      simp only [List.length_append, List.length_take, List.length_drop]
      omega
    · rw [if_neg h]

theorem stripChecksumStep_le (cfg : Config) (id : Str) :
    (stripChecksumStep cfg id).length ≤ id.length := by
  rw [stripChecksumStep]
  split
  · cases hpos : cfg.checksumPosition with
    | explicit ps =>
      dsimp only
      exact removeFold_le cfg.checksumLength (sortDesc ps) id
    | start =>
      dsimp only
      simp only [List.length_drop]
      omega
    | middle =>
      dsimp only
      refine jsSlice_pair_le id _ _ (by positivity) ?_
      intro hmid
      have hlt : (id.length : Int) - ((cfg.checksumCount * cfg.checksumLength : Nat) : Int)
          < 0 := by
        by_contra hge
        push_neg at hge
        exact absurd (Int.fdiv_nonneg hge (by norm_num : (0 : Int) ≤ 2)) (by omega)
      omega
    | atEnd =>
      dsimp only
      exact jsSlice_len_le id _ _
  · exact le_refl _

/-- Claim C10 (confirmed): `extractCoreId` never removes characters for an
absent frame — a configured non-empty leading frame (resp. suffix) that is
not actually present leaves the string unchanged at that step — and the
whole extraction is a total function that never grows the string, for every
input string and options record. -/
theorem C10_extract_tolerant :
    (∀ (cfg : Config) (id : Str), ¬ cfg.pfx.isPrefixOf id = true →
      stripPfxStep cfg id = id) ∧
    (∀ (cfg : Config) (id : Str), ¬ cfg.suffix.isSuffixOf id = true →
      stripSuffixStep cfg id = id) ∧
    (∀ (cfg : Config) (id : Str), (extractCoreId cfg id).length ≤ id.length) := by
  refine ⟨?_, ?_, ?_⟩
  · intro cfg id h
    simp only [stripPfxStep]
    by_cases hp : cfg.pfx = []
    · rw [if_neg (not_not_intro hp)]
    · rw [if_pos hp]
      have hws : ¬ ((cfg.pfx ++ cfg.separator).isPrefixOf id = true) := by
        intro hws
        apply h
        rw [List.isPrefixOf_iff_prefix] at hws ⊢
        exact (List.prefix_append cfg.pfx cfg.separator).trans hws
      rw [if_neg hws, if_neg h]
  · intro cfg id h
    simp only [stripSuffixStep]
    by_cases hp : cfg.suffix = []
    · rw [if_neg (not_not_intro hp)]
    · rw [if_pos hp]
      have hws : ¬ ((cfg.separator ++ cfg.suffix).isSuffixOf id = true) := by
        intro hws
        apply h
        rw [List.isSuffixOf_iff_suffix] at hws ⊢
        exact (List.suffix_append cfg.separator cfg.suffix).trans hws
      rw [if_neg hws, if_neg h]
  · intro cfg id
    rw [extractCoreId]
    exact le_trans (stripChecksumStep_le cfg _)
      (le_trans (stripSepStep_le cfg _)
        (le_trans (stripSuffixStep_le cfg _) (stripPfxStep_le cfg id)))

/-- Witness for C10: the frame "USER" (resp. "END") is configured but absent
from "XYZ", and both strip steps leave the string untouched; extraction
never lengthens it. -/
theorem C10_extract_tolerant_witness :
    stripPfxStep { pfx := str "USER" } (str "XYZ") = str "XYZ" ∧
    stripSuffixStep { suffix := str "END" } (str "XYZ") = str "XYZ" ∧
    (extractCoreId { pfx := str "USER" } (str "XYZ")).length ≤ (str "XYZ").length :=
  ⟨C10_extract_tolerant.1 { pfx := str "USER" } (str "XYZ") (by decide),
   C10_extract_tolerant.2.1 { suffix := str "END" } (str "XYZ") (by decide),
   C10_extract_tolerant.2.2 { pfx := str "USER" } (str "XYZ")⟩

/- ===================== Lemma layer: bufferToBase digit values ===================== -/

theorem hexDigitVal_hexDigitChar : ∀ d < 16, hexDigitVal (hexDigitChar d) = d := by
  decide

theorem foldl_bytesToHex (bs : List Nat) (hB : ∀ b ∈ bs, b < 256) :
    ∀ a : Nat, (bytesToHex bs).foldl (fun x c => x * 16 + hexDigitVal c) a =
      bs.foldl (fun x b => x * 256 + b) a := by
  induction bs with
  | nil => intro a; simp [bytesToHex]
  | cons b bs ih =>
    intro a
    have hb : b < 256 := hB b (List.mem_cons_self _ _)
    have hstep : bytesToHex (b :: bs) =
        hexDigitChar (b / 16) :: hexDigitChar (b % 16) :: bytesToHex bs := by
      simp [bytesToHex]
    rw [hstep, List.foldl_cons, List.foldl_cons,
        hexDigitVal_hexDigitChar _ (by omega : b / 16 < 16),
        hexDigitVal_hexDigitChar _ (Nat.mod_lt _ (by norm_num)),
        ih (fun x hx => hB x (List.mem_cons_of_mem _ hx)), List.foldl_cons]
    congr 1
    omega

theorem hexToNat_bytesToHex (bs : List Nat) (hB : ∀ b ∈ bs, b < 256) :
    hexToNat (bytesToHex bs) = beNum bs :=
  foldl_bytesToHex bs hB 0

theorem mod_base_pow_succ (num b l : Nat) :
    num % b ^ (l + 1) = num / b % b ^ l * b + num % b := by
  rw [pow_succ, mul_comm, Nat.mod_mul]
  ring

theorem digitsLoop_val (cs : Str) (hcs : cs ≠ []) (hnd : cs.Nodup) :
    ∀ cap num (acc : Str), ∃ ds : Str,
      digitsLoop cs.length cs cap num acc = ds ++ acc ∧ ds.length ≤ cap ∧
      (∀ c ∈ ds, c ∈ cs) ∧ digitsVal cs ds = num % cs.length ^ ds.length := by
  intro cap
  induction cap with
  | zero =>
    intro num acc
    exact ⟨[], by simp [digitsLoop], by simp, by simp, by simp [digitsVal, Nat.mod_one]⟩
  | succ n ih =>
    intro num acc
    by_cases h0 : num = 0
    · exact ⟨[], by simp [digitsLoop, h0], by simp, by simp, by simp [digitsVal, h0]⟩
    · have hpos : 0 < cs.length := List.length_pos.mpr hcs
      have hmod : num % cs.length < cs.length := Nat.mod_lt _ hpos
      obtain ⟨ds', hEq, hLen, hMem, hVal⟩ :=
        ih (num / cs.length) (cs.getD (num % cs.length) '?' :: acc)
      refine ⟨ds' ++ [cs.getD (num % cs.length) '?'], ?_, ?_, ?_, ?_⟩
      · rw [digitsLoop, if_neg h0, hEq]; simp
      · simp; omega
      · intro c hc
        rcases List.mem_append.mp hc with h | h
        · exact hMem c h
        · have : c = cs.getD (num % cs.length) '?' := by simpa using h
          subst this
          rw [List.getD_eq_getElem _ _ hmod]
          exact List.getElem_mem hmod
      · have hidx : cs.indexOf (cs.getD (num % cs.length) '?') = num % cs.length := by
          rw [List.getD_eq_getElem _ _ hmod]
          exact List.indexOf_getElem hnd _ hmod
        simp only [digitsVal, List.foldl_append, List.foldl_cons, List.foldl_nil]
        rw [show (List.foldl (fun a c => a * cs.length + cs.indexOf c) 0 ds') =
              digitsVal cs ds' from rfl,
            hVal, hidx, List.length_append, List.length_singleton,
            mod_base_pow_succ]

/-- Claim C8 (amended): for every NON-EMPTY byte buffer, every non-empty
duplicate-free alphabet, and every target length, `bufferToBase` returns a
string of exactly the target length whose characters are all drawn from the
alphabet; for some k ≤ target the last k characters are the base-|alphabet|
remainder digits of the buffer read as a big unsigned integer (their value
is that integer mod |alphabet|^k, most-significant first), and every
character before them is taken from the alphabet at a freshly drawn
secure-random index, never a fixed zero symbol.  On the EMPTY buffer the
function instead throws (see the counterexample theorem), which is the
correction to the claim. -/
theorem C8_buffer_encoding (buffer : List Nat) (cs : Str) (target : Nat) (pad : Nat → Nat)
    (hb : buffer ≠ []) (hB : ∀ b ∈ buffer, b < 256)
    (hcs : cs ≠ []) (hnd : cs.Nodup) (hpad : ∀ j, pad j < cs.length) :
    ∃ s : Str, bufferToBase buffer cs target pad = some s ∧
      s.length = target ∧ (∀ c ∈ s, c ∈ cs) ∧
      ∃ k ≤ target,
        digitsVal cs (s.drop (target - k)) = beNum buffer % cs.length ^ k ∧
        ∀ j < target - k, s.getD j '?' = cs.getD (pad (target - k - 1 - j)) '?' := by
  obtain ⟨ds, hEq, hLen, hMem, hVal⟩ :=
    digitsLoop_val cs hcs hnd target (hexToNat (bytesToHex buffer)) []
  rw [List.append_nil] at hEq
  rw [hexToNat_bytesToHex buffer hB] at hVal
  have hbe : ¬ buffer.isEmpty := by simpa using hb
  have hPlen : ((List.range (target - ds.length)).map
      (fun i => cs.getD (pad (0 + (target - ds.length) - 1 - i)) '?')).length =
      target - ds.length := by
    simp
  refine ⟨((List.range (target - ds.length)).map
      (fun i => cs.getD (pad (0 + (target - ds.length) - 1 - i)) '?')) ++ ds,
    ?_, ?_, ?_, ds.length, hLen, ?_, ?_⟩
  · rw [bufferToBase, if_neg hbe]
    simp only [hEq, padLoop_eq]
    rw [List.take_of_length_le]
    simp only [List.length_append, List.length_map, List.length_range]
    omega
  · simp only [List.length_append, List.length_map, List.length_range]
    omega
  · intro c hc
    rcases List.mem_append.mp hc with h | h
    · obtain ⟨i, _, hi⟩ := List.mem_map.mp h
      have hlt : pad (0 + (target - ds.length) - 1 - i) < cs.length := hpad _
      rw [List.getD_eq_getElem _ _ hlt] at hi
      rw [← hi]
      exact List.getElem_mem hlt
    · exact hMem c h
  · rw [List.drop_left' hPlen, hVal]
  · intro j hj
    rw [List.getD_append _ _ _ _ (by rw [hPlen]; exact hj),
        List.getD_eq_getElem _ _ (by rw [hPlen]; exact hj)]
    simp only [List.getElem_map, List.getElem_range, Nat.zero_add]

/-- Witness for C8: the one-byte buffer [7], the alphabet "AB", target
length 3 and the constant pad draw 1 satisfy every hypothesis, and the
amended conclusion holds for the produced string. -/
theorem C8_buffer_encoding_witness :
    ∃ s : Str, bufferToBase [7] (str "AB") 3 (fun _ => 1) = some s ∧
      s.length = 3 ∧ (∀ c ∈ s, c ∈ str "AB") ∧
      ∃ k ≤ 3,
        digitsVal (str "AB") (s.drop (3 - k)) = beNum [7] % (str "AB").length ^ k ∧
        ∀ j < 3 - k, s.getD j '?' = (str "AB").getD 1 '?' :=
  C8_buffer_encoding [7] (str "AB") 3 (fun _ => 1) (by decide) (by decide) (by decide)
    (by decide) (fun _ => (by decide : (1 : Nat) < (str "AB").length))

end Sig
